import Mathlib

/-!
Verification development for the HTML main-content extractor
(`src/extractors/content_extractor.py`, class `ContentExtractorV3`).

The extractor operates on a BeautifulSoup DOM tree.  We embed the DOM as a
rose tree `Node` (element with tag, attribute list and children, or a text
leaf) and translate each method of the extractor into a pure Lean function
over `Node`.  Conventions of the embedding:

* A parsed document is a node with tag `"[document]"` whose children are the
  top-level parse results (mirroring `BeautifulSoup`'s own root object).
* BeautifulSoup mutation (`decompose`, `replace_with`, `insert_before`) is
  modeled as pure tree transformation; iteration over a `find_all` snapshot
  followed by in-place mutation is modeled as a top-down traversal applying
  the same per-element decisions in document order.
* bs4 `Tag.__eq__`/`__hash__` compare by recursive content, so membership of
  an element in the `protected_elements` set is structural equality on
  `Node`, which is exactly Lean's `=` / `BEq`.
* A `class` attribute (a list of tokens in bs4, space-joined at every use
  site in the source) is modeled as the single space-separated string.
* Python functions that return `""`/`None` for "no result" become `Option`.
-/

set_option maxHeartbeats 1000000
set_option maxRecDepth 40000

namespace MT

/-- DOM node: an element (tag name, attributes, children) or a text leaf. -/
inductive Node where
  | elem (tag : String) (attrs : List (String × String)) (children : List Node)
  | text (s : String)

mutual
/-- Structural equality of trees.  This is exactly bs4's `Tag.__eq__`
(recursive comparison of name, attributes and contents), which the source
relies on for membership tests in the `protected_elements` set. -/
def nodeEq : Node → Node → Bool
  | .text s, .text s2 => s = s2
  | .elem t a cs, .elem t2 a2 cs2 => t = t2 && a = a2 && nodeEqL cs cs2
  | _, _ => false
def nodeEqL : List Node → List Node → Bool
  | [], [] => true
  | c :: cs, d :: ds => nodeEq c d && nodeEqL cs ds
  | _, _ => false
end

instance : BEq Node := ⟨nodeEq⟩

/-- Tag name of a node (text leaves have no tag; the empty string stands for
bs4's `None` name, which matches no tag filter). -/
def tagOf : Node → String
  | .elem t _ _ => t
  | .text _ => ""

/-- Whether a node is an element (bs4 `isinstance(x, Tag)`). -/
def isElem : Node → Bool
  | .elem _ _ _ => true
  | .text _ => false

/-- Attribute list of a node. -/
def attrsOf : Node → List (String × String)
  | .elem _ a _ => a
  | .text _ => []

/-- Children of a node. -/
def childrenOf : Node → List Node
  | .elem _ _ cs => cs
  | .text _ => []

/-- Attribute lookup, bs4 `element.get(k)`. -/
def getAttr (n : Node) (k : String) : Option String :=
  ((attrsOf n).find? (fun p => p.1 = k)).map (fun p => p.2)

/-- Leading-run test on character lists (needle starts hay). -/
def charsStart : List Char → List Char → Bool
  | [], _ => true
  | _ :: _, [] => false
  | a :: as, b :: bs => a = b && charsStart as bs

/-- Substring occurrence on character lists. -/
def charsSub (needle : List Char) : List Char → Bool
  | [] => charsStart needle []
  | b :: bs => charsStart needle (b :: bs) || charsSub needle bs

/-- Python's `needle in hay` substring test. -/
def containsSub (hay needle : String) : Bool :=
  charsSub needle.toList hay.toList

/-- ASCII whitespace (what Python's `str.strip`/`str.split` see in the
documents at hand). -/
def isWs (c : Char) : Bool :=
  c = ' ' || c = '\n' || c = '\t' || c = '\r'

/-- Python `str.strip()`. -/
def strTrim (s : String) : String :=
  ⟨((s.data.dropWhile isWs).reverse.dropWhile isWs).reverse⟩

/-- ASCII lowercasing of one character. -/
def lowerChar (c : Char) : Char :=
  if 65 ≤ c.toNat && c.toNat ≤ 90 then Char.ofNat (c.toNat + 32) else c

/-- Python `str.lower()` (ASCII). -/
def strLower (s : String) : String :=
  ⟨s.data.map lowerChar⟩

/-- Helper for `wordCount`: counts maximal non-whitespace runs. -/
def wordCountAux : List Char → Bool → Nat
  | [], _ => 0
  | c :: cs, inW =>
    if isWs c then wordCountAux cs false
    else (if inW then 0 else 1) + wordCountAux cs true

/-- Python `len(s.split())`: number of whitespace-separated words. -/
def wordCount (s : String) : Nat :=
  wordCountAux s.data false

mutual
/-- bs4 `get_text(strip=True)`: concatenation of the stripped text leaves. -/
def textStrip : Node → String
  | .text s => strTrim s
  | .elem _ _ cs => textStripL cs
def textStripL : List Node → String
  | [] => ""
  | c :: cs => textStrip c ++ textStripL cs
end

mutual
/-- Number of element nodes in a tree (the node itself included). -/
def elemCount : Node → Nat
  | .text _ => 0
  | .elem _ _ cs => 1 + elemCountL cs
def elemCountL : List Node → Nat
  | [] => 0
  | c :: cs => elemCount c + elemCountL cs
end

mutual
/-- Number of nodes (elements and text leaves) in a tree. -/
def nodeCount : Node → Nat
  | .text _ => 1
  | .elem _ _ cs => 1 + nodeCountL cs
def nodeCountL : List Node → Nat
  | [] => 0
  | c :: cs => nodeCount c + nodeCountL cs
end

mutual
/-- Element descendants of a node in document (preorder) order, the node
itself excluded — bs4 `element.find_all()`. -/
def descElems : Node → List Node
  | .text _ => []
  | .elem _ _ cs => descElemsL cs
def descElemsL : List Node → List Node
  | [] => []
  | c :: cs =>
    (if isElem c then [c] else []) ++ descElems c ++ descElemsL cs
end

mutual
/-- Whether the node itself or any descendant element has tag `tg`. -/
def hasTag (tg : String) : Node → Bool
  | .text _ => false
  | .elem t _ cs => t = tg || hasTagL tg cs
def hasTagL (tg : String) : List Node → Bool
  | [] => false
  | c :: cs => hasTag tg c || hasTagL tg cs
end

/-- Whether some strict descendant has tag `tg` — bs4 `element.find(tg)`
being non-`None`. -/
def hasTagDesc (tg : String) (n : Node) : Bool :=
  hasTagL tg (childrenOf n)

/-- Number of descendant elements with tag `tg` — `len(element.find_all(tg))`. -/
def countTag (tg : String) (n : Node) : Nat :=
  ((descElems n).filter (fun e => tagOf e = tg)).length

/-- Direct element children with tag among `tgs` —
`element.find_all(tgs, recursive=False)`. -/
def directTagChildren (tgs : List String) (n : Node) : List Node :=
  (childrenOf n).filter (fun c => tgs.contains (tagOf c))

/-- Number of direct `p` children — `len(element.find_all('p', recursive=False))`. -/
def directPCount (n : Node) : Nat :=
  (directTagChildren ["p"] n).length

mutual
/-- Whether `e` occurs as a subtree of `t` (t itself included). -/
def occursB (e : Node) : Node → Bool
  | .text s => nodeEq (Node.text s) e
  | .elem t a cs => nodeEq (Node.elem t a cs) e || occursBL e cs
def occursBL (e : Node) : List Node → Bool
  | [] => false
  | c :: cs => occursB e c || occursBL e cs
end

/-- Escape of text content as bs4's serializer writes it. -/
def escText (s : String) : String :=
  s.toList.foldl (fun acc c =>
    acc ++ (if c = '&' then "&amp;" else if c = '<' then "&lt;"
            else if c = '>' then "&gt;" else String.singleton c)) ""

/-- Escape of an attribute value as bs4's serializer writes it. -/
def escAttr (s : String) : String :=
  s.toList.foldl (fun acc c =>
    acc ++ (if c = '&' then "&amp;" else if c = '<' then "&lt;"
            else if c = '>' then "&gt;"
            else if c = '"' then "&quot;" else String.singleton c)) ""

/-- Serialized attribute list, in stored order. -/
def renderAttrs : List (String × String) → String
  | [] => ""
  | (k, v) :: rest => " " ++ k ++ "=\"" ++ escAttr v ++ "\"" ++ renderAttrs rest

mutual
/-- Serialization of a tree, Python `str(element)`.  (bs4 self-closes void
elements such as `img`; we always write a closing tag, which is equivalent
for every substring test the source performs.) -/
def render : Node → String
  | .text s => escText s
  | .elem t a cs => "<" ++ t ++ renderAttrs a ++ ">" ++ renderL cs ++ "</" ++ t ++ ">"
def renderL : List Node → String
  | [] => ""
  | c :: cs => render c ++ renderL cs
end

/-- Space-join of all attribute values, Python
`' '.join(str(v) for v in element.attrs.values())`. -/
def joinSp : List String → String
  | [] => ""
  | [v] => v
  | v :: rest => v ++ " " ++ joinSp rest

/-- Joined attribute values of a node. -/
def attrVals (n : Node) : String :=
  joinSp ((attrsOf n).map (fun p => p.2))

/-- The `class` attribute as the space-joined token string (empty when
absent), Python `' '.join(element.get('class', []))`. -/
def classStr (n : Node) : String :=
  (getAttr n "class").getD ""

/-- The `id` attribute (empty when absent). -/
def idStr (n : Node) : String :=
  (getAttr n "id").getD ""

/-- Whether any of the alternatives of a (case-insensitively compiled)
pattern occurs in `s`; callers lowercase `s` first. -/
def anyPat (pats : List String) (s : String) : Bool :=
  pats.any (fun p => containsSub s p)

/-! ### `_remove_noise` (`content_extractor.py`, lines 230-301)

The source first computes the `protected_elements` set (every `h1` and each
`h1`'s direct parent), then collects removals in several snapshot passes
(noise tags; `audio`/`time`/`svg` tags; audio-pattern attributes), processes
links, and finally decomposes the collected elements.  All removal decisions
are made before any removal is executed, so we model the stage as the
corresponding passes applied in decision order. -/

/-- Pattern `audio|player|podcast|sound` used on joined attribute values. -/
def audioPattern : List String := ["audio", "player", "podcast", "sound"]

/-- Tags collected by the `header`/`footer`/`aside`/`nav` snapshot. -/
def noiseTags : List String := ["header", "footer", "aside", "nav"]

mutual
/-- The `protected_elements` set: every `h1` element, and each `h1`'s direct
parent (the document root when an `h1` is top-level). -/
def protectedOf (n : Node) : List Node :=
  match n with
  | .text _ => []
  | .elem t a cs =>
    (if cs.any (fun c => tagOf c = "h1") then [Node.elem t a cs] else []) ++
    cs.filter (fun c => tagOf c = "h1") ++ protectedOfL cs
def protectedOfL : List Node → List Node
  | [] => []
  | c :: cs => protectedOf c ++ protectedOfL cs
end

/-- `element.find(lambda tag: tag in protected_elements)`: some descendant
element is (content-)equal to a protected element. -/
def hasProtDesc (prot : List Node) (n : Node) : Bool :=
  (descElems n).any (fun d => prot.contains d)

mutual
/-- Removal of `header`/`footer`/`aside`/`nav` elements: such an element is
kept only when it is itself protected or contains a protected element
(`content_extractor.py` lines 243-249); `none` means the subtree is removed. -/
def noisePass (prot : List Node) : Node → Option Node
  | .text s => some (.text s)
  | .elem t a cs =>
    if noiseTags.contains t &&
       !(prot.contains (Node.elem t a cs)) &&
       !(hasProtDesc prot (Node.elem t a cs)) then
      none
    else
      some (.elem t a (noisePassL prot cs))
def noisePassL (prot : List Node) : List Node → List Node
  | [] => []
  | c :: cs =>
    (match noisePass prot c with
     | none => []
     | some c' => [c']) ++ noisePassL prot cs
end

mutual
/-- Unconditional removal of `audio`, `time` and `svg` elements
(`content_extractor.py` lines 254-255). -/
def audioTagPass : Node → Option Node
  | .text s => some (.text s)
  | .elem t a cs =>
    if t = "audio" || t = "time" || t = "svg" then none
    else some (.elem t a (audioTagPassL cs))
def audioTagPassL : List Node → List Node
  | [] => []
  | c :: cs =>
    (match audioTagPass c with
     | none => []
     | some c' => [c']) ++ audioTagPassL cs
end

mutual
/-- Removal of non-protected elements whose joined attribute values match the
audio pattern (`content_extractor.py` lines 257-265). -/
def audioAttrPass (prot : List Node) : Node → Option Node
  | .text s => some (.text s)
  | .elem t a cs =>
    if !(prot.contains (Node.elem t a cs)) &&
       anyPat audioPattern (strLower (attrVals (Node.elem t a cs))) then
      none
    else
      some (.elem t a (audioAttrPassL prot cs))
def audioAttrPassL (prot : List Node) : List Node → List Node
  | [] => []
  | c :: cs =>
    (match audioAttrPass prot c with
     | none => []
     | some c' => [c']) ++ audioAttrPassL prot cs
end

/-- Does an anchor qualify for link handling: truthy `href`, or `target`
equal to `_self`/`_blank` (`content_extractor.py` lines 273-277). -/
def linkCond (c : Node) : Bool :=
  (match getAttr c "href" with
   | some h => h ≠ ""
   | none => false) ||
  strLower ((getAttr c "target").getD "") = "_self" ||
  strLower ((getAttr c "target").getD "") = "_blank"

/-- Parent tags that are never removed on behalf of a contained link. -/
def structuralParents : List String :=
  ["article", "main", "div", "section", "body", "html"]

mutual
/-- Link handling (`content_extractor.py` lines 267-294).  `inP`: an ancestor
is a `p`.  A qualifying anchor inside a paragraph is replaced by its stripped
text (dropped when empty); otherwise, if the anchor's parent is neither
protected nor a structural container, the whole parent is removed (signalled
by a `none` result from `linkChildren`), else just the anchor is removed. -/
def linkPass (prot : List Node) (inP : Bool) : Node → Option Node
  | .text s => some (.text s)
  | .elem t a cs =>
    match linkChildren prot (inP || t = "p")
        (!(prot.contains (Node.elem t a cs)) && !(structuralParents.contains t)) cs with
    | none => none
    | some cs' => some (.elem t a cs')
def linkChildren (prot : List Node) (inP : Bool) (parentRemovable : Bool) :
    List Node → Option (List Node)
  | [] => some []
  | c :: cs =>
    if tagOf c = "a" && !(prot.contains c) && linkCond c then
      if inP then
        (linkChildren prot inP parentRemovable cs).map (fun rest =>
          (if textStrip c ≠ "" then [Node.text (textStrip c)] else []) ++ rest)
      else if parentRemovable then none
      else (linkChildren prot inP parentRemovable cs).map (fun rest => rest)
    else
      match linkPass prot inP c with
      | none => (linkChildren prot inP parentRemovable cs).map (fun rest => rest)
      | some c' => (linkChildren prot inP parentRemovable cs).map (fun rest => c' :: rest)
end

/-- The whole `_remove_noise` stage.  The passes appear in the source's
decision order; the document root is never itself removed (`getD`). -/
def remove_noise (doc : Node) : Node :=
  let prot := protectedOf doc
  let d1 := (noisePass prot doc).getD doc
  let d2 := (audioTagPass d1).getD d1
  let d3 := (audioAttrPass prot d2).getD d2
  (linkPass prot false d3).getD d3

/-! ### `_find_h1_container` (`content_extractor.py`, lines 81-152) -/

mutual
/-- Context of the first `h1` in preorder below a node: the `h1` itself, its
ancestor chain (nearest first, ending at the searched node), its preceding
element siblings in document order, and its following element siblings.
`none` when no `h1` descendant exists (bs4 `soup.find_all('h1')` empty). -/
def firstH1Ctx : Node → Option (Node × List Node × List Node × List Node)
  | .text _ => none
  | .elem t a cs =>
    match firstH1InChildren cs [] with
    | none => none
    | some (h1, anc, prevs, nexts) =>
      some (h1, anc ++ [Node.elem t a cs], prevs, nexts)
def firstH1InChildren : List Node → List Node →
    Option (Node × List Node × List Node × List Node)
  | [], _ => none
  | c :: cs, seen =>
    if tagOf c = "h1" then
      some (c, [], seen.reverse.filter isElem, cs.filter isElem)
    else
      match firstH1Ctx c with
      | some r => some r
      | none => firstH1InChildren cs (c :: seen)
end

/-- Metadata patterns checked against classes and visible text
(`content_extractor.py` lines 130-133). -/
def metadataPatterns : List String :=
  ["author", "byline", "date", "time", "published",
   "meta", "tag", "category", "topic", "share", "social"]

/-- `is_metadata_element` (`content_extractor.py` lines 122-135). -/
def is_metadata_element (e : Node) : Bool :=
  isElem e &&
  metadataPatterns.any (fun pat =>
    containsSub (strLower (classStr e)) pat || containsSub (strLower (textStrip e)) pat)

/-- Walk of the first `h1`'s ancestors (nearest first), stopping at `body`,
looking for a `div`/`section` with a header-like class or id
(`content_extractor.py` lines 100-112). -/
def headerLikeAncestor : List Node → Option Node
  | [] => none
  | p :: ps =>
    if tagOf p = "body" then none
    else if (tagOf p = "div" || tagOf p = "section") &&
      (containsSub (strLower (classStr p)) "header" ||
       containsSub (strLower (classStr p)) "title" ||
       containsSub (strLower (idStr p)) "header" ||
       containsSub (strLower (idStr p)) "title" ||
       containsSub (strLower (classStr p)) "meta" ||
       containsSub (strLower (classStr p)) "info") then some p
    else headerLikeAncestor ps

/-- Scan of the `h1`'s next siblings for metadata, stopping at the first
non-metadata `p`/`div` (`content_extractor.py` lines 144-150). -/
def collectNextMeta : List Node → List Node
  | [] => []
  | s :: ss =>
    if is_metadata_element s then s :: collectNextMeta ss
    else if tagOf s = "p" || tagOf s = "div" then []
    else collectNextMeta ss

/-- `_find_h1_container`: nearest `header` ancestor of the first `h1`, else a
header-like `div`/`section` ancestor (up to `body`), else a synthesized
`header` holding the metadata previous siblings (document order), the `h1`,
and the metadata next siblings. -/
def find_h1_container (soup : Node) : Option Node :=
  match firstH1Ctx soup with
  | none => none
  | some (h1, anc, prevs, nexts) =>
    match anc.find? (fun p => tagOf p = "header") with
    | some h => some h
    | none =>
      match headerLikeAncestor anc with
      | some d => some d
      | none =>
        some (Node.elem "header" [("class", "extracted-header")]
          (prevs.filter is_metadata_element ++ [h1] ++ collectNextMeta nexts))

/-! ### `_find_article_container` (`content_extractor.py`, lines 303-383)

Scores are Python floats; every quantity involved (text lengths, paragraph
and heading counts, division by the direct-child count, the fixed
multipliers 1.5/1.3/0.8) is nonnegative, so the arithmetic is embedded
exactly as nonnegative fractions over `Nat` with cross-multiplication
comparison. -/

/-- A nonnegative exact fraction: numerator and (always positive)
denominator. -/
structure Frac where
  num : Nat
  den : Nat

/-- Embedding of a natural number as a fraction. -/
def fOfNat (n : Nat) : Frac := ⟨n, 1⟩

/-- Strict comparison of fractions (denominators positive throughout). -/
def fLt (x y : Frac) : Bool := x.num * y.den < y.num * x.den

/-- Exact addition of fractions. -/
def fAdd (x y : Frac) : Frac := ⟨x.num * y.den + y.num * x.den, x.den * y.den⟩

/-- Exact multiplication of fractions. -/
def fMul (x y : Frac) : Frac := ⟨x.num * y.num, x.den * y.den⟩

/-- `get_content_density` (`content_extractor.py` lines 307-319):
`len(text)/max(direct_children,1) + 100*paragraphs + 50*headings`. -/
def get_content_density (e : Node) : Frac :=
  let textLen := (textStrip e).length
  let paragraphs := countTag "p" e
  let headings :=
    ((descElems e).filter (fun d =>
      ["h1", "h2", "h3", "h4", "h5", "h6"].contains (tagOf d))).length
  let totalNodes := ((childrenOf e).filter isElem).length
  fAdd (fAdd ⟨textLen, max totalNodes 1⟩ (fOfNat (paragraphs * 100)))
    (fOfNat (headings * 50))

mutual
/-- `score_container` (`content_extractor.py` lines 321-353): depth-first
scoring; the best-scoring direct `div`/`article`/`main`/`section` child
contributes 80% of its score; the node itself is the representative container
unless a strictly better child container exists. -/
def score_container : Node → Frac × Node
  | .text s => (fOfNat 0, .text s)
  | .elem t a cs =>
    let self := Node.elem t a cs
    let base :=
      fMul (get_content_density self)
        (if t = "article" then ⟨3, 2⟩ else if t = "main" then ⟨13, 10⟩ else ⟨1, 1⟩)
    let bc := bestChild cs (fOfNat 0) none
    let total := fAdd base (fMul ⟨4, 5⟩ bc.1)
    match bc.2 with
    | none => (total, self)
    | some c => if fLt bc.1 base then (total, self) else (total, c)
/-- Fold over direct children keeping the first strictly-greatest child score
(Python `if child_score > best_child_score`). -/
def bestChild : List Node → Frac → Option Node → Frac × Option Node
  | [], b, bcont => (b, bcont)
  | c :: cs, b, bcont =>
    if ["div", "article", "main", "section"].contains (tagOf c) then
      let sc := score_container c
      if fLt b sc.1 then bestChild cs sc.1 (some sc.2)
      else bestChild cs b bcont
    else bestChild cs b bcont
end

/-- The tag-name list passed to the fallback `find_all` (the last two entries
are CSS selector strings which `find_all` treats as literal tag names). -/
def fallbackSeedTags : List String :=
  ["article", "main", "div[class*=\"content\"]", "div[class*=\"article\"]"]

/-- Seeds of the fallback search: every element anywhere whose tag name is in
`fallbackSeedTags` (`content_extractor.py` line 365). -/
def fallbackSeeds (soup : Node) : List Node :=
  (descElems soup).filter (fun e => fallbackSeedTags.contains (tagOf e))

/-- Left fold keeping the current best on ties (Python `max` with a key
returns the first maximum). -/
def maxFirstGo : Frac × Node → List (Frac × Node) → Frac × Node
  | best, [] => best
  | best, c :: cs => if fLt best.1 c.1 then maxFirstGo c cs else maxFirstGo best cs

/-- Python `max(candidates, key=lambda x: x[0])`: first maximum wins. -/
def maxFirst : List (Frac × Node) → Option Node
  | [] => none
  | c :: cs => some (maxFirstGo c cs).2

/-- `_find_article_container`: score root-level `article`/`main` elements;
when none scores positively, score the fallback seeds; keep candidates with
at least `min_paragraph_count` (3) paragraphs and `min_text_length` (150)
text, and return the highest-scoring container. -/
def find_article_container (soup : Node) : Option Node :=
  let roots := (childrenOf soup).filter (fun c => tagOf c = "article" || tagOf c = "main")
  let cands0 := (roots.map score_container).filter (fun sc => fLt (fOfNat 0) sc.1)
  let cands :=
    if cands0.isEmpty then
      ((fallbackSeeds soup).map score_container).filter (fun sc => fLt (fOfNat 0) sc.1)
    else cands0
  maxFirst (cands.filter (fun sc =>
    3 ≤ countTag "p" sc.2 && 150 ≤ (textStrip sc.2).length))

/-! ### `_is_complete_article` (`content_extractor.py`, lines 206-228; the
identical function also appears in `content_extractor_stable.py`,
lines 275-297) -/

/-- Number of preceding `p`/`div`/`section` element siblings of the first
`h1` descendant (`first_h1.find_previous_siblings(['p','div','section'])`);
`none` when there is no `h1` descendant. -/
def firstH1PrevBlockCount (e : Node) : Option Nat :=
  (firstH1Ctx e).map (fun r =>
    ((r.2.2.1).filter (fun s => ["p", "div", "section"].contains (tagOf s))).length)

/-- `_is_complete_article`: the element has an `h1` whose first occurrence is
preceded by at most two block siblings, at least 3 paragraphs, and stripped
text of length at least `2 * min_text_length` (300). -/
def is_complete_article (e : Node) : Bool :=
  match firstH1Ctx e with
  | none => false
  | some r =>
    if ((r.2.2.1).filter (fun s => ["p", "div", "section"].contains (tagOf s))).length > 2
    then false
    else 3 ≤ countTag "p" e && 2 * 150 ≤ (textStrip e).length

/-! ### `_merge_content` (`content_extractor.py`, lines 390-490)

`is_duplicate` in the source returns `False` (fresh), `True` (duplicate), a
replacement `header` tag, or `None` (dropped header); its result is consumed
with Python truthiness.  We reify the four outcomes in `DupRes` and thread
the `seen_text`/`seen_images` sets explicitly. -/

/-- Merge-time deduplication state: seen normalized texts and image sources. -/
structure MergeSt where
  seenText : List String
  seenImages : List String

/-- Result of the source's `is_duplicate`. -/
inductive DupRes where
  | dup
  | fresh
  | hdrRepl (n : Node)
  | hdrDrop

/-- Registration loop over a `figure`'s nested `img` sources
(`content_extractor.py` lines 426-432). -/
def figLoop (st : MergeSt) : List Node → DupRes × MergeSt
  | [] => (.fresh, st)
  | i :: rest =>
    let src := (getAttr i "src").getD ""
    if st.seenImages.contains src then (.dup, st)
    else figLoop { st with seenImages := st.seenImages ++ [src] } rest

mutual
/-- `is_duplicate`: text elements deduplicate on stripped text; `img`/
`picture`/`figure` on `src` (plus, for `figure`, every nested `img` `src`);
a `header` is rebuilt from its non-duplicate children (kept only when some
child survives); everything else is fresh. -/
def is_duplicate (st : MergeSt) : Node → DupRes × MergeSt
  | .text _ => (.fresh, st)
  | .elem t a cs =>
    let self := Node.elem t a cs
    if ["p", "h1", "h2", "h3", "h4", "h5", "h6"].contains t then
      let tx := textStrip self
      if st.seenText.contains tx then (.dup, st)
      else (.fresh, { st with seenText := st.seenText ++ [tx] })
    else if ["img", "picture", "figure"].contains t then
      let src := (getAttr self "src").getD ""
      if st.seenImages.contains src then (.dup, st)
      else
        let st1 := { st with seenImages := st.seenImages ++ [src] }
        if t = "figure" then
          figLoop st1 ((descElems self).filter (fun d => tagOf d = "img"))
        else (.fresh, st1)
    else if t = "header" then
      let r := hdrChildren false st cs
      if r.2.1 then
        (.hdrRepl (Node.elem "header" [("class", "article-header")] r.1), r.2.2)
      else (.hdrDrop, r.2.2)
    else (.fresh, st)
/-- Child filtering for a `header` (`content_extractor.py` lines 436-449).
Python appends a child when `not is_duplicate(child)` is truthy, i.e. when
the result is `False` (fresh) or `None` (dropped nested header).  The source
iterates `element.children` — a live iterator over `element.contents` —
while `new_header.append(child)` extracts the child from that very list, so
after every appended child the iterator skips the following sibling.  The
`skip` flag carries that one-element skip; a child that is not appended
(a `NavigableString`, a duplicate, or a truthy rebuilt nested header) stays
in the list and causes no skip. -/
def hdrChildren (skip : Bool) (st : MergeSt) : List Node → List Node × Bool × MergeSt
  | [] => ([], false, st)
  | c :: cs =>
    if skip then hdrChildren false st cs
    else if isElem c then
      let r := is_duplicate st c
      match r.1 with
      | .fresh =>
        let rest := hdrChildren true r.2 cs
        (c :: rest.1, true, rest.2.2)
      | .hdrDrop =>
        let rest := hdrChildren true r.2 cs
        (c :: rest.1, true, rest.2.2)
      | .dup =>
        let rest := hdrChildren false r.2 cs
        (rest.1, rest.2.1, rest.2.2)
      | .hdrRepl _ =>
        let rest := hdrChildren false r.2 cs
        (rest.1, rest.2.1, rest.2.2)
    else hdrChildren false st cs
end

/-- Top-level merge step for one element of the header or body walk
(`content_extractor.py` lines 458-466 and 479-487): a `header` is appended
only as its rebuilt replacement; any other element is appended when fresh. -/
def mergeStep (acc : List Node × MergeSt) (e : Node) : List Node × MergeSt :=
  match e with
  | .text _ => acc
  | .elem t _ _ =>
    if t = "header" then
      match is_duplicate acc.2 e with
      | (.hdrRepl h, st') => (acc.1 ++ [h], st')
      | (_, st') => (acc.1, st')
    else
      match is_duplicate acc.2 e with
      | (.fresh, st') => (acc.1 ++ [e], st')
      | (_, st') => (acc.1, st')

mutual
/-- Removal of every `h1` subtree (`content_extractor.py` lines 474-476);
`none` when the node itself is an `h1`. -/
def removeAllH1 : Node → Option Node
  | .text s => some (.text s)
  | .elem t a cs =>
    if t = "h1" then none else some (.elem t a (removeAllH1L cs))
def removeAllH1L : List Node → List Node
  | [] => []
  | c :: cs =>
    (match removeAllH1 c with
     | none => []
     | some c' => [c']) ++ removeAllH1L cs
end

/-- `_merge_content`: the reparsed header and body each contribute exactly
one top-level element (the container itself), walked by `mergeStep`; all
`h1`s are first removed from the body copy.  The result is the
`<article class="extracted-content">` wrapper. -/
def merge_content (header body : Node) : Node :=
  let acc1 := mergeStep ([], ⟨[], []⟩) header
  let body' := (removeAllH1 body).getD body
  let acc2 := mergeStep acc1 body'
  Node.elem "article" [("class", "extracted-content")] acc2.1

/-! ### `_clean_extracted_content` (`content_extractor.py`, lines 492-732)

`clean_pass` makes three snapshot sweeps (content-empty/single-child
`div`/`section` handling; `should_remove_container` removals; empty-container
removal), counting every removal, and the loop repeats until a pass removes
nothing.  Each sweep is modeled as a top-down traversal applying the same
per-element decisions.  Two snapshot re-visits that the source performs
within a single pass — re-examining a single-child replacement and the
hoisted paragraphs of a removed container later in the same snapshot — are
deferred to the following pass here; the loop runs to the same fixpoint. -/

/-- Interactive tags (`content_extractor.py` lines 512-516). -/
def interactiveTags : List String :=
  ["button", "input", "select", "textarea", "form", "dialog", "details",
   "menu", "menuitem", "iframe", "embed", "object", "audio", "time"]

/-- `is_empty_container` (`content_extractor.py` lines 518-534): a non-media
element whose stripped text is empty. -/
def is_empty_container : Node → Bool
  | .text _ => false
  | .elem t a cs =>
    if ["img", "video", "figure", "picture"].contains t then false
    else textStrip (Node.elem t a cs) = ""

/-- `should_remove_container` (`content_extractor.py` lines 536-613).
`inP` records whether an ancestor is a `p` (`element.find_parent('p')`).
The branches appear in source order; an `a`/`span` outside a paragraph with
at least 10 words falls through to the attribute checks, exactly as the
source's early-return structure does. -/
def should_remove_container (inP : Bool) : Node → Bool
  | .text _ => false
  | .elem t a cs =>
    let self := Node.elem t a cs
    if hasTagDesc "h1" self || t = "html" || t = "body" then false
    else if t = "p" || t = "article" then false
    else if 1 < directPCount self then false
    else if (interactiveTags.contains t ||
             (descElems self).any (fun d => interactiveTags.contains (tagOf d))) &&
            !((descElems self).any (fun d =>
              ["p", "img", "h1", "h2", "h3"].contains (tagOf d))) then true
    else if (t = "a" || t = "span") && inP then false
    else if (t = "a" || t = "span") && wordCount (textStrip self) < 10 then true
    else if a ≠ [] &&
            (match getAttr self "class" with
             | some c => c ≠ "" && containsSub (strLower c) "share"
             | none => false) then true
    else if a ≠ [] && containsSub (strLower (attrVals self)) "share" then true
    else if containsSub (strLower (render self)) "related" && !(hasTagDesc "p" self)
    then true
    else if a ≠ [] && (containsSub (strLower (attrVals self)) "share" ||
                       containsSub (strLower (attrVals self)) "save") then true
    else if a ≠ [] && a.any (fun kv => containsSub (strLower kv.2) "related") &&
            !(hasTagDesc "p" self) then true
    else false

mutual
/-- Flattened `p` descendants of a node in preorder, nested `p`s pulled out,
modelling the sequential `element.insert_before(p)` hoisting over
`element.find_all('p')` (`content_extractor.py` lines 689-693). -/
def pFlat : Node → List Node
  | .text _ => []
  | .elem _ _ cs => pFlatL cs
/-- Hoist contribution of a single node: a `p` is emitted (its own nested
`p`s extracted), followed by the `p`s found below it. -/
def pFlatN : Node → List Node
  | .text _ => []
  | .elem t a cs0 =>
    if t = "p" then Node.elem t a (purgeP cs0) :: pFlatL cs0
    else pFlatL cs0
def pFlatL : List Node → List Node
  | [] => []
  | c :: cs => pFlatN c ++ pFlatL cs
/-- Removal of every `p` descendant (they have been hoisted out). -/
def purgeP : List Node → List Node
  | [] => []
  | c :: cs => purgePN c ++ purgeP cs
/-- `purgeP` on a single node. -/
def purgePN : Node → List Node
  | .text s => [Node.text s]
  | .elem t a cs0 => if t = "p" then [] else [Node.elem t a (purgeP cs0)]
end

/-- Copy of `id`/`class` down to a single-child replacement when the child
lacks them (`content_extractor.py` lines 655-659). -/
def copyDownAttrs (pa : List (String × String)) : Node → Node
  | .text s => .text s
  | .elem t a cs =>
    let a1 :=
      match pa.find? (fun kv => kv.1 = "id"), a.find? (fun kv => kv.1 = "id") with
      | some kv, none => a ++ [("id", kv.2)]
      | _, _ => a
    let a2 :=
      match pa.find? (fun kv => kv.1 = "class"), a1.find? (fun kv => kv.1 = "class") with
      | some kv, none => a1 ++ [("class", kv.2)]
      | _, _ => a1
    .elem t a2 cs

mutual
/-- Sweep 1 (`content_extractor.py` lines 620-663): a `div`/`section` with no
`p`/`h1`/media descendant is removed; one with no direct `p` child and
exactly one element child of a structural tag is replaced by that child
(with `id`/`class` copied down); `none` means removed. -/
def phase1 : Node → Option Node × Nat
  | .text s => (some (.text s), 0)
  | .elem t a cs =>
    let self := Node.elem t a cs
    if t = "div" || t = "section" then
      if !(hasTagDesc "p" self || hasTagDesc "h1" self ||
           (descElems self).any (fun d =>
             ["img", "picture", "figure", "video"].contains (tagOf d))) then
        (none, 1)
      else if 0 < directPCount self then
        let r := phase1L cs
        (some (.elem t a r.1), r.2)
      else
        match cs.filter isElem with
        | [c] =>
          if ["article", "main", "div", "section"].contains (tagOf c) then
            (some (copyDownAttrs a c), 1)
          else
            let r := phase1L cs
            (some (.elem t a r.1), r.2)
        | _ =>
          let r := phase1L cs
          (some (.elem t a r.1), r.2)
    else
      let r := phase1L cs
      (some (.elem t a r.1), r.2)
def phase1L : List Node → List Node × Nat
  | [] => ([], 0)
  | c :: cs =>
    let r1 := phase1 c
    let r2 := phase1L cs
    ((match r1.1 with
      | none => []
      | some c' => [c']) ++ r2.1, r1.2 + r2.2)
end

mutual
/-- Sweep 2, per kept element: its children are processed with this element
as parent context; a `none` from `phase2C` means an interactive child caused
`parent.decompose()`, so the element vanishes. -/
def phase2N (inP : Bool) : Node → List Node × Nat
  | .text s => ([.text s], 0)
  | .elem t a cs =>
    match phase2C (inP || t = "p") t a [] cs with
    | (none, n) => ([], n)
    | (some cs', n) => ([.elem t a cs'], n)
/-- Sweep 2 over a children list (`content_extractor.py` lines 665-697).
`done` is the already-processed leading part, used to evaluate the parent's current
state for the interactive-parent check.  For a removable interactive element
the parent is removed when it is not `html`/`body`, has no `p` descendant and
fewer than 10 words; otherwise just the element is removed.  For any other
removable element its paragraphs are hoisted out first. -/
def phase2C (inP : Bool) (pt : String) (pa : List (String × String))
    (done : List Node) : List Node → Option (List Node) × Nat
  | [] => (some [], 0)
  | c :: rs =>
    if should_remove_container inP c then
      if interactiveTags.contains (tagOf c) then
        if pt ≠ "html" && pt ≠ "body" &&
           !(hasTagDesc "p" (Node.elem pt pa (done ++ c :: rs))) &&
           wordCount (textStrip (Node.elem pt pa (done ++ c :: rs))) < 10 then
          (none, 1)
        else
          let r := phase2C inP pt pa done rs
          (r.1, r.2 + 1)
      else
        let hs := pFlat c
        let r := phase2C inP pt pa (done ++ hs) rs
        ((r.1).map (fun l => hs ++ l), r.2 + 1)
    else
      let rc := phase2N inP c
      let r := phase2C inP pt pa (done ++ rc.1) rs
      ((r.1).map (fun l => rc.1 ++ l), rc.2 + r.2)
end

mutual
/-- Sweep 3 (`content_extractor.py` lines 699-711): an empty non-media
container that is not a direct parent of `p`/`img`/`h1`/`h2`/`h3`/`picture`
is removed. -/
def phase3 : Node → Option Node × Nat
  | .text s => (some (.text s), 0)
  | .elem t a cs =>
    let self := Node.elem t a cs
    if !(["img", "video", "figure", "picture"].contains t) &&
       is_empty_container self &&
       !((directTagChildren ["p", "img", "h1", "h2", "h3", "picture"] self).length > 0)
    then (none, 1)
    else
      let r := phase3L cs
      (some (.elem t a r.1), r.2)
def phase3L : List Node → List Node × Nat
  | [] => ([], 0)
  | c :: cs =>
    let r1 := phase3 c
    let r2 := phase3L cs
    ((match r1.1 with
      | none => []
      | some c' => [c']) ++ r2.1, r1.2 + r2.2)
end

/-- Sweep 1 applied below the soup root (the root is not in `find_all`). -/
def phase1Doc : Node → Node × Nat
  | .text s => (.text s, 0)
  | .elem t a cs =>
    let r := phase1L cs
    (.elem t a r.1, r.2)

/-- Sweep 2 applied below the soup root. -/
def phase2Doc : Node → Node × Nat
  | .text s => (.text s, 0)
  | .elem t a cs =>
    match phase2C (t = "p") t a [] cs with
    | (none, n) => (.elem t a [], n)
    | (some cs', n) => (.elem t a cs', n)

/-- Sweep 3 applied below the soup root. -/
def phase3Doc : Node → Node × Nat
  | .text s => (.text s, 0)
  | .elem t a cs =>
    let r := phase3L cs
    (.elem t a r.1, r.2)

/-- `clean_pass` (`content_extractor.py` lines 615-716): the three sweeps in
order; the returned count is the total number of removals. -/
def clean_pass (t : Node) : Node × Nat :=
  let r1 := phase1Doc t
  let r2 := phase2Doc r1.1
  let r3 := phase3Doc r2.1
  (r3.1, r1.2 + r2.2 + r3.2)

/-- The cleaning loop (`content_extractor.py` lines 718-724): repeat
`clean_pass` until a pass removes zero elements; the result is the tree
state after that final pass. -/
def cleanLoop : Nat → Node → Node
  | 0, t => t
  | fuel + 1, t =>
    let r := clean_pass t
    if r.2 = 0 then r.1 else cleanLoop fuel r.1

/-- The fixpoint cleaner with sufficient fuel (each productive pass strictly
decreases `elemCount`, so `elemCount t + 1` passes always suffice). -/
def fixClean (t : Node) : Node :=
  cleanLoop (elemCount t + 1) t

/-! ### `_standardize_media_dimensions` (`content_extractor.py`,
lines 734-758) -/

/-- Inline style written on direct media elements. -/
def coverStyle : String := "width: 256px; height: 256px; object-fit: cover;"

/-- Inline style written on `picture` containers by the final loop. -/
def blockStyle : String := "width: 256px; height: 256px; display: inline-block;"

/-- Set (replace-or-append) of an attribute, bs4 `element[k] = v`. -/
def setAttr (a : List (String × String)) (k v : String) : List (String × String) :=
  if (a.find? (fun kv => kv.1 = k)).isSome then
    a.map (fun kv => if kv.1 = k then (k, v) else kv)
  else a ++ [(k, v)]

/-- Deletion of an attribute, bs4 `del element[k]`. -/
def delAttr (a : List (String × String)) (k : String) : List (String × String) :=
  a.filter (fun kv => kv.1 ≠ k)

/-- Media attribute rewrite applied to a selected element: cover style,
explicit 256×256, conflicting sizing attributes stripped. -/
def mediaAttrs (a : List (String × String)) : List (String × String) :=
  delAttr (delAttr (delAttr
    (setAttr (setAttr (setAttr a "style" coverStyle) "width" "256") "height" "256")
    "data-width") "data-height") "sizes"

mutual
/-- `_standardize_media_dimensions`: every `img`/`video` element and every
`iframe` whose `src` mentions "video" gets the media rewrite; every `picture`
gets the media rewrite and then the inline-block style from the final
`soup.find_all('picture')` loop.  (The `element.name == 'source'` branch of
the source is unreachable: no selector in the list matches `source`.) -/
def standardize : Node → Node
  | .text s => .text s
  | .elem t a cs =>
    let cs' := standardizeL cs
    if t = "img" || t = "video" ||
       (t = "iframe" &&
        containsSub ((getAttr (Node.elem t a cs) "src").getD "") "video") then
      .elem t (mediaAttrs a) cs'
    else if t = "picture" then
      .elem t (setAttr (mediaAttrs a) "style" blockStyle) cs'
    else .elem t a cs'
def standardizeL : List Node → List Node
  | [] => []
  | c :: cs => standardize c :: standardizeL cs
end

/-! ### `extract` (`content_extractor.py`, lines 154-202)

`extract` consumes the raw HTML string (for the `'<h1' not in html` check)
and its parse result.  An empty-string result is `none`; a successful result
is the final soup (document root whose children are the cleaned output). -/

/-- `_clean_extracted_content` on the serialized merged container: empty
result unless `"<h1"` occurs in the serialization; otherwise the fixpoint
cleaning loop followed by media standardization, on a fresh soup wrapping
the reparsed content. -/
def clean_extracted (t : Node) : Option Node :=
  if !(containsSub (render t) "<h1") then none
  else some (standardize (fixClean (Node.elem "[document]" [] [t])))

/-- `extract`: the raw `'<h1'` pre-check; noise removal; header container
location; article container location; the `min_paragraph_count` check on the
body; merge; cleaning.  (The merge never raises in the embedding, so the
body-only fallback branch of the source's `try`/`except` is not taken.) -/
def extract (html : String) (doc : Node) : Option Node :=
  if !(containsSub html "<h1") then none
  else
    let soup := remove_noise doc
    match find_h1_container soup with
    | none => none
    | some header =>
      match find_article_container soup with
      | none => none
      | some body =>
        if countTag "p" body < 3 then none
        else clean_extracted (merge_content header body)

/-- The content pattern of the extractor (`content_patterns` regex,
`content_extractor.py` lines 59-63), as its list of alternatives. -/
def contentPatterns : List String :=
  ["article", "content", "main", "post", "entry", "story", "text", "body",
   "news", "blog", "detail", "single", "page-content", "post-content"]

/-! ### Concrete documents used by the claim theorems and witnesses -/

/-- A 79-character paragraph text (no noise/metadata keyword occurs in it). -/
def pXText : String :=
  "pqrs pqrs pqrs pqrs pqrs pqrs pqrs pqrs pqrs pqrs pqrs pqrs pqrs pqrs pqrs pqrs"

/-- First headline of the C2 document. -/
def h1A : Node := .elem "h1" [] [.text "Alpha headline"]

/-- Second headline of the C2 document. -/
def h1B : Node := .elem "h1" [] [.text "Beta headline"]

/-- A long paragraph, used twice (identical text) in the C2 document. -/
def pX1 : Node := .elem "p" [] [.text pXText]

/-- An empty paragraph (counts for `min_paragraph_count`, removed by the
empty-container sweep). -/
def pEmpty : Node := .elem "p" [] []

/-- Body container of the C2 document. -/
def mainC2 : Node := .elem "main" [] [pX1, pX1, pEmpty]

/-- Semantic header of the C2 document, holding two headlines. -/
def headerC2 : Node := .elem "header" [] [h1A, h1B]

/-- Parse of `rawC2`. -/
def docC2 : Node := .elem "[document]" [] [.elem "body" [] [headerC2, mainC2]]

/-- Raw HTML of the C2 document. -/
def rawC2 : String :=
  "<body><header><h1>Alpha headline</h1><h1>Beta headline</h1></header><main><p>"
  ++ pXText ++ "</p><p>" ++ pXText ++ "</p><p></p></main></body>"

/-- Expected `extract` output for the C2 document: the rebuilt header keeps
only the first headline (appending `h1A` makes the live child iterator skip
`h1B`), and the body is appended wholesale with its two identically-texted
paragraphs (the empty one is removed by the cleaning loop). -/
def outC2 : Node :=
  .elem "[document]" []
    [.elem "article" [("class", "extracted-content")]
      [.elem "header" [("class", "article-header")] [h1A],
       .elem "main" [] [pX1, pX1]]]

/-- Headline of the C6 document. -/
def h1T6 : Node := .elem "h1" [] [.text "Tqwx Vbnm"]

/-- First paragraph of the C6 document. -/
def pL1 : Node :=
  .elem "p" [] [.text "gggg hhhh iiii jjjj kkkk llll mmmm nnnn oooo pppp qqqq rrrr"]

/-- Second paragraph of the C6 document. -/
def pL2 : Node :=
  .elem "p" [] [.text "ssss tttt uuuu vvvv wwww xxxx yyyy zzzz gggg hhhh iiii jjjj"]

/-- Third paragraph of the C6 document. -/
def pL3 : Node :=
  .elem "p" [] [.text "kkkk llll mmmm nnnn oooo pppp qqqq rrrr ssss tttt uuuu vvvv"]

/-- The image of the C6 document. -/
def imgA : Node := .elem "img" [("src", "a.png")] []

/-- Content div of the C6 document. -/
def contentDiv6 : Node := .elem "div" [("class", "content")] [pL1, pL2, pL3, imgA]

/-- Body container of the C6 document. -/
def main6 : Node := .elem "main" [] [h1T6, contentDiv6]

/-- Parse of `raw6`. -/
def doc6 : Node := .elem "[document]" [] [.elem "body" [] [main6]]

/-- Raw HTML of the C6 document. -/
def raw6 : String :=
  "<body><main><h1>Tqwx Vbnm</h1><div class=\"content\">"
  ++ "<p>gggg hhhh iiii jjjj kkkk llll mmmm nnnn oooo pppp qqqq rrrr</p>"
  ++ "<p>ssss tttt uuuu vvvv wwww xxxx yyyy zzzz gggg hhhh iiii jjjj</p>"
  ++ "<p>kkkk llll mmmm nnnn oooo pppp qqqq rrrr ssss tttt uuuu vvvv</p>"
  ++ "<img src=\"a.png\"/></div></main></body>"

/-- The C6 image after media standardization. -/
def imgOut : Node :=
  .elem "img"
    [("src", "a.png"), ("style", coverStyle), ("width", "256"), ("height", "256")] []

/-- Expected `extract` output for the C6 document. -/
def out6 : Node :=
  .elem "[document]" []
    [.elem "article" [("class", "extracted-content")]
      [.elem "header" [("class", "article-header")] [h1T6],
       .elem "main" [] [.elem "div" [("class", "content")] [pL1, pL2, pL3, imgOut]]]]

/-- C4 witness input: a document holding one empty `div`. -/
def t4 : Node := .elem "[document]" [] [.elem "div" [] []]

/-- Paragraph inside the share container of the C9 document. -/
def pHello : Node := .elem "p" [] [.text "hello world"]

/-- A `div` with class `share` containing a paragraph. -/
def shareDiv : Node := .elem "div" [("class", "share")] [pHello]

/-- Headline of the C9 document. -/
def h1T9 : Node := .elem "h1" [] [.text "Tzko"]

/-- C9 input tree (merged-stage document). -/
def t9 : Node := .elem "[document]" [] [.elem "article" [] [h1T9, shareDiv]]

/-- Expected C9 result: the share container is gone, its paragraph hoisted. -/
def t9' : Node := .elem "[document]" [] [.elem "article" [] [h1T9, pHello]]

/-- Headline of the C7 document. -/
def h1T7 : Node := .elem "h1" [] [.text "Tkkz"]

/-- A `nav` carrying no protected content. -/
def navX : Node := .elem "nav" [] [.text "x"]

/-- The protected parent (direct parent of an `h1`) containing the `nav`. -/
def divProt : Node := .elem "div" [] [h1T7, navX]

/-- C7 input document. -/
def docC7 : Node := .elem "[document]" [] [.elem "body" [] [divProt]]

/-- First paragraph of the C8 document. -/
def pM1 : Node :=
  .elem "p" [] [.text "aaaa bbbb cccc dddd eeee ffff gggg hhhh iiii jjjj kkkk llll"]

/-- Second paragraph of the C8 document. -/
def pM2 : Node :=
  .elem "p" [] [.text "mmmm nnnn oooo pppp qqqq rrrr ssss tttt uuuu vvvv wwww xxxx"]

/-- Third paragraph of the C8 document. -/
def pM3 : Node :=
  .elem "p" [] [.text "yyyy zzzz aaaa bbbb cccc dddd eeee ffff gggg hhhh iiii jjjj"]

/-- A content-pattern-matching `div` that is the only credible container of
the C8 document. -/
def contentDiv8 : Node := .elem "div" [("class", "content")] [pM1, pM2, pM3]

/-- C8 input document: no `article`/`main` anywhere. -/
def doc8 : Node := .elem "[document]" [] [.elem "body" [] [contentDiv8]]

/-- An empty `div`, used as a pre-headline block sibling in the C5 document. -/
def divE : Node := .elem "div" [] []

/-- Headline of the C5 candidate. -/
def h1C5 : Node := .elem "h1" [] [.text "Tmmw Qqwe"]

/-- A 110-character paragraph for the C5 candidate. -/
def pC5a : Node :=
  .elem "p" [] [.text
    "aaaa bbbb cccc dddd eeee ffff gggg hhhh iiii jjjj kkkk llll mmmm nnnn oooo pppp qqqq rrrr ssss tttt uuuu vvvv"]

/-- A second long paragraph for the C5 candidate. -/
def pC5b : Node :=
  .elem "p" [] [.text
    "wwww xxxx yyyy zzzz aaaa bbbb cccc dddd eeee ffff gggg hhhh iiii jjjj kkkk llll mmmm nnnn oooo pppp qqqq rrrr"]

/-- A third long paragraph for the C5 candidate. -/
def pC5c : Node :=
  .elem "p" [] [.text
    "ssss tttt uuuu vvvv wwww xxxx yyyy zzzz aaaa bbbb cccc dddd eeee ffff gggg hhhh iiii jjjj kkkk llll mmmm nnnn"]

/-- C5 candidate: an `article` whose `h1` is preceded by four sibling `div`s
but which meets both the paragraph and the text-length thresholds. -/
def rejectC5 : Node :=
  .elem "article" [] [divE, divE, divE, divE, h1C5, pC5a, pC5b, pC5c]

/-- C10 raw input: headline tags serialized in uppercase. -/
def raw10 : String := "<H1>Heading</H1><p>alpha beta</p>"

/-- Parse of `raw10` by a lenient HTML parser (tag names lowercased). -/
def doc10 : Node :=
  .elem "[document]" []
    [.elem "h1" [] [.text "Heading"], .elem "p" [] [.text "alpha beta"]]

/-- C1 witness raw input (no `h1` element at all). -/
def raw1 : String := "<p>z</p>"

/-- Parse of `raw1`. -/
def doc1 : Node := .elem "[document]" [] [.elem "p" [] [.text "z"]]

/-! ## Supporting lemmas -/

mutual
theorem nodeEq_eq : ∀ {a b : Node}, nodeEq a b = true → a = b
  | .text s, .text s2, h => by
    simp only [nodeEq, decide_eq_true_eq] at h
    exact congrArg Node.text h
  | .elem t a cs, .elem t2 a2 cs2, h => by
    simp only [nodeEq, Bool.and_eq_true, decide_eq_true_eq] at h
    obtain ⟨⟨h1, h2⟩, h3⟩ := h
    subst h1; subst h2
    exact congrArg (Node.elem t a) (nodeEqL_eq h3)
  | .text _, .elem _ _ _, h => by simp [nodeEq] at h
  | .elem _ _ _, .text _, h => by simp [nodeEq] at h
theorem nodeEqL_eq : ∀ {l m : List Node}, nodeEqL l m = true → l = m
  | [], [], _ => rfl
  | c :: cs, d :: ds, h => by
    simp only [nodeEqL, Bool.and_eq_true] at h
    exact congrArg₂ (· :: ·) (nodeEq_eq h.1) (nodeEqL_eq h.2)
  | [], _ :: _, h => by simp [nodeEqL] at h
  | _ :: _, [], h => by simp [nodeEqL] at h
end

mutual
theorem nodeEq_refl : ∀ a : Node, nodeEq a a = true
  | .text s => by simp [nodeEq]
  | .elem t a cs => by simp [nodeEq, nodeEqL_refl cs]
theorem nodeEqL_refl : ∀ l : List Node, nodeEqL l l = true
  | [] => rfl
  | c :: cs => by simp [nodeEqL, nodeEq_refl c, nodeEqL_refl cs]
end

theorem elemCountL_append (l m : List Node) :
    elemCountL (l ++ m) = elemCountL l + elemCountL m := by
  induction l with
  | nil => simp [elemCountL]
  | cons c cs ih => simp [elemCountL, ih]; omega

theorem elemCount_le_of_mem {c : Node} {cs : List Node} (h : c ∈ cs) :
    elemCount c ≤ elemCountL cs := by
  induction cs with
  | nil => cases h
  | cons d ds ih =>
    simp only [elemCountL]
    rcases List.mem_cons.mp h with h | h
    · subst h; omega
    · have := ih h; omega

theorem elemCount_copyDownAttrs (pa : List (String × String)) (c : Node) :
    elemCount (copyDownAttrs pa c) = elemCount c := by
  cases c with
  | text s => rfl
  | elem t a cs =>
    simp only [copyDownAttrs]
    split <;> split <;> simp [elemCount]

mutual
theorem purgeFlatN_le :
    ∀ c : Node, elemCountL (purgePN c) + elemCountL (pFlatN c) ≤ elemCount c
  | .text s => by simp [purgePN, pFlatN, elemCountL, elemCount]
  | .elem t a cs0 => by
    have ih := purgeFlatL_le cs0
    simp only [purgePN, pFlatN]
    split
    · simp only [elemCountL, elemCount, elemCountL_append]
      omega
    · simp only [elemCountL, elemCount, elemCountL_append]
      omega
theorem purgeFlatL_le :
    ∀ cs : List Node, elemCountL (purgeP cs) + elemCountL (pFlatL cs) ≤ elemCountL cs
  | [] => Nat.le_refl _
  | c :: cs => by
    have h1 := purgeFlatN_le c
    have h2 := purgeFlatL_le cs
    simp only [purgeP, pFlatL, elemCountL, elemCountL_append]
    omega
end

/-- Hoisting the paragraphs of an element yields strictly fewer elements
than the element's subtree (the element itself is dropped). -/
theorem pFlat_lt (t : String) (a : List (String × String)) (cs : List Node) :
    elemCountL (pFlat (Node.elem t a cs)) < elemCount (Node.elem t a cs) := by
  have := purgeFlatL_le cs
  simp only [pFlat, elemCount]
  omega

/-! ### Sweep 1: a zero-removal sweep is the identity, and every removal
drops at least one element -/

/-- Element count of an optional node (removed = 0). -/
def elemCountO : Option Node → Nat
  | none => 0
  | some n => elemCount n

mutual
theorem phase1_zero : ∀ n : Node, (phase1 n).2 = 0 → (phase1 n).1 = some n
  | .text _, _ => rfl
  | .elem t a cs, h => by
    have ihL := phase1L_zero cs
    rcases hEq : phase1 (Node.elem t a cs) with ⟨res, n⟩
    rw [hEq] at h
    simp only at h ⊢
    subst h
    simp only [phase1] at hEq
    split at hEq <;>
      [skip; (simp only [Prod.mk.injEq] at hEq; rw [← hEq.1, ihL hEq.2])]
    split at hEq <;>
      [(simp only [Prod.mk.injEq] at hEq; omega);
       skip]
    split at hEq <;>
      [(simp only [Prod.mk.injEq] at hEq; rw [← hEq.1, ihL hEq.2]); skip]
    split at hEq
    · split at hEq <;> simp only [Prod.mk.injEq] at hEq
      · omega
      · rw [← hEq.1, ihL hEq.2]
    · simp only [Prod.mk.injEq] at hEq
      rw [← hEq.1, ihL hEq.2]
theorem phase1L_zero : ∀ cs : List Node, (phase1L cs).2 = 0 → (phase1L cs).1 = cs
  | [], _ => rfl
  | c :: cs, h => by
    have ihN := phase1_zero c
    have ihL := phase1L_zero cs
    simp only [phase1L] at h ⊢
    have h1 : (phase1 c).2 = 0 := by omega
    have h2 : (phase1L cs).2 = 0 := by omega
    rw [ihN h1, ihL h2]
    rfl
end

mutual
theorem phase1_le : ∀ n : Node,
    elemCountO (phase1 n).1 + (phase1 n).2 ≤ elemCount n
  | .text _ => by simp [phase1, elemCountO, elemCount]
  | .elem t a cs => by
    have ihL := phase1L_le cs
    rcases hEq : phase1 (Node.elem t a cs) with ⟨res, n⟩
    simp only
    simp only [phase1] at hEq
    split at hEq
    · split at hEq
      · simp only [Prod.mk.injEq] at hEq
        rw [← hEq.1, ← hEq.2]
        simp [elemCountO, elemCount]
      · split at hEq
        · simp only [Prod.mk.injEq] at hEq
          rw [← hEq.1, ← hEq.2]
          simp only [elemCountO, elemCount]
          omega
        · split at hEq
          · split at hEq
            · rename_i c hc _
              simp only [Prod.mk.injEq] at hEq
              rw [← hEq.1, ← hEq.2]
              have hmem : c ∈ cs := by
                have hmf : c ∈ cs.filter isElem := by
                  rw [hc]; exact List.mem_singleton.mpr rfl
                exact List.mem_of_mem_filter hmf
              have := elemCount_le_of_mem hmem
              simp only [elemCountO, elemCount, elemCount_copyDownAttrs]
              omega
            · simp only [Prod.mk.injEq] at hEq
              rw [← hEq.1, ← hEq.2]
              simp only [elemCountO, elemCount]
              omega
          · simp only [Prod.mk.injEq] at hEq
            rw [← hEq.1, ← hEq.2]
            simp only [elemCountO, elemCount]
            omega
    · simp only [Prod.mk.injEq] at hEq
      rw [← hEq.1, ← hEq.2]
      simp only [elemCountO, elemCount]
      omega
theorem phase1L_le : ∀ cs : List Node,
    elemCountL (phase1L cs).1 + (phase1L cs).2 ≤ elemCountL cs
  | [] => by simp [phase1L, elemCountL]
  | c :: cs => by
    have ihN := phase1_le c
    have ihL := phase1L_le cs
    simp only [phase1L, elemCountL, elemCountL_append]
    rcases hp : (phase1 c).1 with _ | c' <;> rw [hp] at ihN <;>
      simp only [elemCountO, elemCountL] at ihN ⊢ <;> omega
end

/-! ### Sweep 2: same two properties -/

/-- A removable element is never a text leaf. -/
theorem should_remove_elem {inP : Bool} {c : Node}
    (h : should_remove_container inP c = true) :
    ∃ t a cs, c = Node.elem t a cs := by
  cases c with
  | text s => exact absurd h (by simp [should_remove_container])
  | elem t a cs => exact ⟨t, a, cs, rfl⟩

mutual
theorem phase2N_zero : ∀ (inP : Bool) (n : Node),
    (phase2N inP n).2 = 0 → (phase2N inP n).1 = [n]
  | _, .text _, _ => rfl
  | inP, .elem t a cs, h => by
    have ihC := phase2C_zero (inP || t = "p") t a [] cs
    rcases hEq : phase2C (inP || t = "p") t a [] cs with ⟨res, n⟩
    rw [hEq] at ihC
    simp only [phase2N, hEq] at h ⊢
    rcases res with _ | cs'
    · simp only at h
      exact absurd (ihC h) (by simp)
    · simp only at h ⊢
      have := ihC h
      simp only [Option.some.injEq] at this
      rw [this]
theorem phase2C_zero : ∀ (inP : Bool) (pt : String) (pa : List (String × String))
    (done rest : List Node),
    (phase2C inP pt pa done rest).2 = 0 → (phase2C inP pt pa done rest).1 = some rest
  | _, _, _, _, [], _ => rfl
  | inP, pt, pa, done, c :: rs, h => by
    have ihN := phase2N_zero inP c
    rcases hEq : phase2C inP pt pa done (c :: rs) with ⟨res, n⟩
    rw [hEq] at h
    simp only at h ⊢
    subst h
    simp only [phase2C] at hEq
    split at hEq
    · split at hEq
      · split at hEq
        · simp only [Prod.mk.injEq] at hEq
          omega
        · simp only [Prod.mk.injEq] at hEq
          omega
      · simp only [Prod.mk.injEq] at hEq
        omega
    · rcases hN : phase2N inP c with ⟨rc, nN⟩
      rw [hN] at hEq ihN
      have ihC := phase2C_zero inP pt pa (done ++ rc) rs
      rcases hC : phase2C inP pt pa (done ++ rc) rs with ⟨resC, nC⟩
      rw [hC] at hEq ihC
      simp only [Prod.mk.injEq] at hEq
      have hn : nN = 0 ∧ nC = 0 := by omega
      have h1 : rc = [c] := ihN (by simp [hn.1])
      have h2 : resC = some rs := ihC (by simp [hn.2])
      rw [← hEq.1, h1, h2]
      rfl
end

/-- Element count of an optional children list (killed parent = 0). -/
def elemCountLO : Option (List Node) → Nat
  | none => 0
  | some l => elemCountL l

mutual
theorem phase2N_le : ∀ (inP : Bool) (n : Node),
    elemCountL (phase2N inP n).1 + (phase2N inP n).2 ≤ elemCount n
  | _, .text _ => by simp [phase2N, elemCountL, elemCount]
  | inP, .elem t a cs => by
    have ihC := phase2C_le (inP || t = "p") t a [] cs
    rcases hEq : phase2C (inP || t = "p") t a [] cs with ⟨res, n⟩
    rw [hEq] at ihC
    simp only [phase2N, hEq]
    rcases res with _ | cs' <;>
      simp only [elemCountLO, elemCountL, elemCount] at ihC ⊢ <;> omega
theorem phase2C_le : ∀ (inP : Bool) (pt : String) (pa : List (String × String))
    (done rest : List Node),
    elemCountLO (phase2C inP pt pa done rest).1 + (phase2C inP pt pa done rest).2 ≤
      elemCountL rest
  | _, _, _, _, [] => by simp [phase2C, elemCountLO, elemCountL]
  | inP, pt, pa, done, c :: rs => by
    rcases hEq : phase2C inP pt pa done (c :: rs) with ⟨res, n⟩
    simp only
    simp only [phase2C] at hEq
    split at hEq
    · rename_i hRem
      obtain ⟨t, a, cs, hc⟩ := should_remove_elem hRem
      split at hEq
      · split at hEq
        · simp only [Prod.mk.injEq] at hEq
          rw [← hEq.1, ← hEq.2]
          subst hc
          simp only [elemCountLO, elemCountL, elemCount]
          omega
        · have ihC := phase2C_le inP pt pa done rs
          rcases hC : phase2C inP pt pa done rs with ⟨resC, nC⟩
          rw [hC] at hEq ihC
          simp only [Prod.mk.injEq] at hEq
          rw [← hEq.1, ← hEq.2]
          subst hc
          simp only [elemCountL, elemCount] at ihC ⊢
          omega
      · have ihC := phase2C_le inP pt pa (done ++ pFlat c) rs
        rcases hC : phase2C inP pt pa (done ++ pFlat c) rs with ⟨resC, nC⟩
        rw [hC] at hEq ihC
        simp only [Prod.mk.injEq] at hEq
        rw [← hEq.1, ← hEq.2]
        subst hc
        have hFlat := pFlat_lt t a cs
        rcases resC with _ | l <;>
          simp only [elemCountLO, Option.map, elemCountL, elemCount,
            elemCountL_append] at ihC hFlat ⊢ <;> omega
    · rcases hN : phase2N inP c with ⟨rc, nN⟩
      have ihN := phase2N_le inP c
      rw [hN] at ihN
      have ihC := phase2C_le inP pt pa (done ++ rc) rs
      rcases hC : phase2C inP pt pa (done ++ rc) rs with ⟨resC, nC⟩
      rw [hN, hC] at hEq
      rw [hC] at ihC
      simp only [Prod.mk.injEq] at hEq
      rw [← hEq.1, ← hEq.2]
      rcases resC with _ | l <;>
        simp only [elemCountLO, Option.map, elemCountL, elemCount,
          elemCountL_append] at ihN ihC ⊢ <;> omega
end

/-! ### Sweep 3: same two properties -/

mutual
theorem phase3_zero : ∀ n : Node, (phase3 n).2 = 0 → (phase3 n).1 = some n
  | .text _, _ => rfl
  | .elem t a cs, h => by
    have ihL := phase3L_zero cs
    rcases hEq : phase3 (Node.elem t a cs) with ⟨res, n⟩
    rw [hEq] at h
    simp only at h ⊢
    subst h
    simp only [phase3] at hEq
    split at hEq
    · simp only [Prod.mk.injEq] at hEq
      omega
    · simp only [Prod.mk.injEq] at hEq
      rw [← hEq.1, ihL hEq.2]
theorem phase3L_zero : ∀ cs : List Node, (phase3L cs).2 = 0 → (phase3L cs).1 = cs
  | [], _ => rfl
  | c :: cs, h => by
    have ihN := phase3_zero c
    have ihL := phase3L_zero cs
    simp only [phase3L] at h ⊢
    have h1 : (phase3 c).2 = 0 := by omega
    have h2 : (phase3L cs).2 = 0 := by omega
    rw [ihN h1, ihL h2]
    rfl
end

mutual
theorem phase3_le : ∀ n : Node,
    elemCountO (phase3 n).1 + (phase3 n).2 ≤ elemCount n
  | .text _ => by simp [phase3, elemCountO, elemCount]
  | .elem t a cs => by
    have ihL := phase3L_le cs
    rcases hEq : phase3 (Node.elem t a cs) with ⟨res, n⟩
    simp only
    simp only [phase3] at hEq
    split at hEq <;> simp only [Prod.mk.injEq] at hEq <;> rw [← hEq.1, ← hEq.2]
    · simp [elemCountO, elemCount]
    · simp only [elemCountO, elemCount]
      omega
theorem phase3L_le : ∀ cs : List Node,
    elemCountL (phase3L cs).1 + (phase3L cs).2 ≤ elemCountL cs
  | [] => by simp [phase3L, elemCountL]
  | c :: cs => by
    have ihN := phase3_le c
    have ihL := phase3L_le cs
    simp only [phase3L, elemCountL, elemCountL_append]
    rcases hp : (phase3 c).1 with _ | c' <;> rw [hp] at ihN <;>
      simp only [elemCountO, elemCountL] at ihN ⊢ <;> omega
end

/-! ### `clean_pass`: fixpoint and strict decrease -/

theorem phase1Doc_zero {t : Node} (h : (phase1Doc t).2 = 0) : (phase1Doc t).1 = t := by
  cases t with
  | text s => rfl
  | elem tg a cs =>
    simp only [phase1Doc] at h ⊢
    rw [phase1L_zero cs h]

theorem phase2Doc_zero {t : Node} (h : (phase2Doc t).2 = 0) : (phase2Doc t).1 = t := by
  cases t with
  | text s => rfl
  | elem tg a cs =>
    have ihC := phase2C_zero (tg = "p") tg a [] cs
    rcases hEq : phase2C (tg = "p") tg a [] cs with ⟨res, n⟩
    rw [hEq] at ihC
    simp only [phase2Doc, hEq] at h ⊢
    rcases res with _ | cs'
    · simp only at h
      exact absurd (ihC h) (by simp)
    · simp only at h ⊢
      have := ihC h
      simp only [Option.some.injEq] at this
      rw [this]

theorem phase3Doc_zero {t : Node} (h : (phase3Doc t).2 = 0) : (phase3Doc t).1 = t := by
  cases t with
  | text s => rfl
  | elem tg a cs =>
    simp only [phase3Doc] at h ⊢
    rw [phase3L_zero cs h]

theorem phase1Doc_le (t : Node) :
    elemCount (phase1Doc t).1 + (phase1Doc t).2 ≤ elemCount t := by
  cases t with
  | text s => simp [phase1Doc, elemCount]
  | elem tg a cs =>
    have := phase1L_le cs
    simp only [phase1Doc, elemCount]
    omega

theorem phase2Doc_le (t : Node) :
    elemCount (phase2Doc t).1 + (phase2Doc t).2 ≤ elemCount t := by
  cases t with
  | text s => simp [phase2Doc, elemCount]
  | elem tg a cs =>
    have ihC := phase2C_le (tg = "p") tg a [] cs
    rcases hEq : phase2C (tg = "p") tg a [] cs with ⟨res, n⟩
    rw [hEq] at ihC
    simp only [phase2Doc, hEq]
    rcases res with _ | cs' <;>
      simp only [elemCountLO, elemCountL, elemCount] at ihC ⊢ <;> omega

theorem phase3Doc_le (t : Node) :
    elemCount (phase3Doc t).1 + (phase3Doc t).2 ≤ elemCount t := by
  cases t with
  | text s => simp [phase3Doc, elemCount]
  | elem tg a cs =>
    have := phase3L_le cs
    simp only [phase3Doc, elemCount]
    omega

/-- A pass that removes nothing leaves the tree unchanged. -/
theorem clean_pass_zero {t : Node} (h : (clean_pass t).2 = 0) : (clean_pass t).1 = t := by
  simp only [clean_pass] at h ⊢
  have h1 : (phase1Doc t).2 = 0 := by omega
  have h2 : (phase2Doc (phase1Doc t).1).2 = 0 := by omega
  have h3 : (phase3Doc (phase2Doc (phase1Doc t).1).1).2 = 0 := by omega
  rw [phase3Doc_zero h3, phase2Doc_zero h2, phase1Doc_zero h1]

/-- The removal count of a pass never exceeds the number of elements the
pass deletes. -/
theorem clean_pass_le (t : Node) :
    elemCount (clean_pass t).1 + (clean_pass t).2 ≤ elemCount t := by
  simp only [clean_pass]
  have h1 := phase1Doc_le t
  have h2 := phase2Doc_le (phase1Doc t).1
  have h3 := phase3Doc_le (phase2Doc (phase1Doc t).1).1
  omega

/-- After the loop exits, one more `clean_pass` removes zero elements
(provable for any fuel not below the element count). -/
theorem cleanLoop_fix : ∀ (fuel : Nat) (t : Node), elemCount t < fuel →
    (clean_pass (cleanLoop fuel t)).2 = 0 := by
  intro fuel
  induction fuel with
  | zero => intro t h; omega
  | succ f ih =>
    intro t h
    rcases hEq : clean_pass t with ⟨t', n⟩
    simp only [cleanLoop, hEq]
    rcases Nat.eq_zero_or_pos n with hn | hn
    · subst hn
      rw [if_pos rfl]
      have ht : t' = t := by
        have h0 := clean_pass_zero (t := t) (by rw [hEq])
        rw [hEq] at h0
        exact h0
      rw [ht, hEq]
    · rw [if_neg (by omega : ¬ n = 0)]
      have hlt : elemCount t' < elemCount t := by
        have hle := clean_pass_le t
        rw [hEq] at hle
        simp only at hle
        omega
      exact ih t' (by omega)

/-! ### Noise removal never introduces an element tag -/

theorem hasTagL_append (tg : String) (l m : List Node) :
    hasTagL tg (l ++ m) = (hasTagL tg l || hasTagL tg m) := by
  induction l with
  | nil => simp [hasTagL]
  | cons c cs ih => simp [hasTagL, ih, Bool.or_assoc]

mutual
theorem noisePass_hasTag : ∀ {tg : String} (prot : List Node) (n n' : Node),
    noisePass prot n = some n' → hasTag tg n = false → hasTag tg n' = false
  | _, _, .text s, _, h, hT => by
    simp only [noisePass, Option.some.injEq] at h
    rw [← h]; exact hT
  | tg, prot, .elem t a cs, n', h, hT => by
    simp only [noisePass] at h
    split at h
    · exact absurd h (by simp)
    · simp only [Option.some.injEq] at h
      rw [← h]
      simp only [hasTag, Bool.or_eq_false_iff] at hT ⊢
      exact ⟨hT.1, noisePassL_hasTag prot cs hT.2⟩
theorem noisePassL_hasTag : ∀ {tg : String} (prot : List Node) (cs : List Node),
    hasTagL tg cs = false → hasTagL tg (noisePassL prot cs) = false
  | _, _, [], _ => rfl
  | tg, prot, c :: cs, h => by
    simp only [hasTagL, Bool.or_eq_false_iff] at h
    simp only [noisePassL]
    rw [hasTagL_append, Bool.or_eq_false_iff]
    refine ⟨?_, noisePassL_hasTag prot cs h.2⟩
    rcases hn : noisePass prot c with _ | c'
    · rfl
    · simp only [hasTagL, Bool.or_eq_false_iff]
      exact ⟨noisePass_hasTag prot c c' hn h.1, trivial⟩
end

mutual
theorem audioTagPass_hasTag : ∀ {tg : String} (n n' : Node),
    audioTagPass n = some n' → hasTag tg n = false → hasTag tg n' = false
  | _, .text s, _, h, hT => by
    simp only [audioTagPass, Option.some.injEq] at h
    rw [← h]; exact hT
  | tg, .elem t a cs, n', h, hT => by
    simp only [audioTagPass] at h
    split at h
    · exact absurd h (by simp)
    · simp only [Option.some.injEq] at h
      rw [← h]
      simp only [hasTag, Bool.or_eq_false_iff] at hT ⊢
      exact ⟨hT.1, audioTagPassL_hasTag cs hT.2⟩
theorem audioTagPassL_hasTag : ∀ {tg : String} (cs : List Node),
    hasTagL tg cs = false → hasTagL tg (audioTagPassL cs) = false
  | _, [], _ => rfl
  | tg, c :: cs, h => by
    simp only [hasTagL, Bool.or_eq_false_iff] at h
    simp only [audioTagPassL]
    rw [hasTagL_append, Bool.or_eq_false_iff]
    refine ⟨?_, audioTagPassL_hasTag cs h.2⟩
    rcases hn : audioTagPass c with _ | c'
    · rfl
    · simp only [hasTagL, Bool.or_eq_false_iff]
      exact ⟨audioTagPass_hasTag c c' hn h.1, trivial⟩
end

mutual
theorem audioAttrPass_hasTag : ∀ {tg : String} (prot : List Node) (n n' : Node),
    audioAttrPass prot n = some n' → hasTag tg n = false → hasTag tg n' = false
  | _, _, .text s, _, h, hT => by
    simp only [audioAttrPass, Option.some.injEq] at h
    rw [← h]; exact hT
  | tg, prot, .elem t a cs, n', h, hT => by
    simp only [audioAttrPass] at h
    split at h
    · exact absurd h (by simp)
    · simp only [Option.some.injEq] at h
      rw [← h]
      simp only [hasTag, Bool.or_eq_false_iff] at hT ⊢
      exact ⟨hT.1, audioAttrPassL_hasTag prot cs hT.2⟩
theorem audioAttrPassL_hasTag : ∀ {tg : String} (prot : List Node) (cs : List Node),
    hasTagL tg cs = false → hasTagL tg (audioAttrPassL prot cs) = false
  | _, _, [], _ => rfl
  | tg, prot, c :: cs, h => by
    simp only [hasTagL, Bool.or_eq_false_iff] at h
    simp only [audioAttrPassL]
    rw [hasTagL_append, Bool.or_eq_false_iff]
    refine ⟨?_, audioAttrPassL_hasTag prot cs h.2⟩
    rcases hn : audioAttrPass prot c with _ | c'
    · rfl
    · simp only [hasTagL, Bool.or_eq_false_iff]
      exact ⟨audioAttrPass_hasTag prot c c' hn h.1, trivial⟩
end

mutual
theorem linkPass_hasTag : ∀ {tg : String} (prot : List Node) (inP : Bool) (n n' : Node),
    linkPass prot inP n = some n' → hasTag tg n = false → hasTag tg n' = false
  | _, _, _, .text s, _, h, hT => by
    simp only [linkPass, Option.some.injEq] at h
    rw [← h]; exact hT
  | tg, prot, inP, .elem t a cs, n', h, hT => by
    simp only [linkPass] at h
    rcases hc : linkChildren prot (inP || t = "p")
        (!(prot.contains (Node.elem t a cs)) && !(structuralParents.contains t)) cs
      with _ | cs'
    · rw [hc] at h
      exact absurd h (by simp)
    · rw [hc] at h
      simp only [Option.some.injEq] at h
      rw [← h]
      simp only [hasTag, Bool.or_eq_false_iff] at hT ⊢
      exact ⟨hT.1, linkChildren_hasTag prot _ _ cs cs' hc hT.2⟩
theorem linkChildren_hasTag : ∀ {tg : String} (prot : List Node) (inP pr : Bool)
    (cs cs' : List Node),
    linkChildren prot inP pr cs = some cs' → hasTagL tg cs = false →
    hasTagL tg cs' = false
  | _, _, _, _, [], cs', h, _ => by
    simp only [linkChildren, Option.some.injEq] at h
    rw [← h]; rfl
  | tg, prot, inP, pr, c :: cs, cs', h, hT => by
    simp only [hasTagL, Bool.or_eq_false_iff] at hT
    simp only [linkChildren] at h
    split at h
    · split at h
      · rcases hr : linkChildren prot inP pr cs with _ | rest
        · rw [hr] at h
          exact absurd h (by simp)
        · rw [hr] at h
          simp only [Option.map, Option.some.injEq] at h
          rw [← h, hasTagL_append, Bool.or_eq_false_iff]
          constructor
          · split <;> rfl
          · exact linkChildren_hasTag prot inP pr cs rest hr hT.2
      · split at h
        · exact absurd h (by simp)
        · rcases hr : linkChildren prot inP pr cs with _ | rest
          · rw [hr] at h
            exact absurd h (by simp)
          · rw [hr] at h
            simp only [Option.map, Option.some.injEq] at h
            rw [← h]
            exact linkChildren_hasTag prot inP pr cs rest hr hT.2
    · split at h
      · rcases hr : linkChildren prot inP pr cs with _ | rest
        · rw [hr] at h
          exact absurd h (by simp)
        · rw [hr] at h
          simp only [Option.map, Option.some.injEq] at h
          rw [← h]
          exact linkChildren_hasTag prot inP pr cs rest hr hT.2
      · rename_i c1 hc1
        rcases hr : linkChildren prot inP pr cs with _ | rest
        · rw [hr] at h
          exact absurd h (by simp)
        · rw [hr] at h
          simp only [Option.map, Option.some.injEq] at h
          rw [← h]
          simp only [hasTagL, Bool.or_eq_false_iff]
          exact ⟨linkPass_hasTag prot inP c c1 hc1 hT.1,
                 linkChildren_hasTag prot inP pr cs rest hr hT.2⟩
end

/-- `_remove_noise` never introduces an element with a tag that was absent. -/
theorem remove_noise_hasTag {tg : String} (doc : Node)
    (h : hasTag tg doc = false) : hasTag tg (remove_noise doc) = false := by
  simp only [remove_noise]
  have h1 : hasTag tg ((noisePass (protectedOf doc) doc).getD doc) = false := by
    rcases hn : noisePass (protectedOf doc) doc with _ | d
    · exact h
    · exact noisePass_hasTag _ _ _ hn h
  set d1 := (noisePass (protectedOf doc) doc).getD doc
  have h2 : hasTag tg ((audioTagPass d1).getD d1) = false := by
    rcases hn : audioTagPass d1 with _ | d
    · exact h1
    · exact audioTagPass_hasTag _ _ hn h1
  set d2 := (audioTagPass d1).getD d1
  have h3 : hasTag tg ((audioAttrPass (protectedOf doc) d2).getD d2) = false := by
    rcases hn : audioAttrPass (protectedOf doc) d2 with _ | d
    · exact h2
    · exact audioAttrPass_hasTag _ _ _ hn h2
  set d3 := (audioAttrPass (protectedOf doc) d2).getD d2
  rcases hn : linkPass (protectedOf doc) false d3 with _ | d
  · simp only [Option.getD]
    exact h3
  · simp only [Option.getD]
    exact linkPass_hasTag _ _ _ _ hn h3

/-! ### No `h1` anywhere means no h1 context -/

mutual
theorem firstH1Ctx_none : ∀ t : Node, hasTag "h1" t = false → firstH1Ctx t = none
  | .text _, _ => rfl
  | .elem t a cs, h => by
    simp only [hasTag, Bool.or_eq_false_iff] at h
    simp only [firstH1Ctx, firstH1InChildren_none cs [] h.2]
theorem firstH1InChildren_none : ∀ (cs seen : List Node),
    hasTagL "h1" cs = false → firstH1InChildren cs seen = none
  | [], _, _ => rfl
  | c :: cs, seen, h => by
    simp only [hasTagL, Bool.or_eq_false_iff] at h
    have htag : ¬ (tagOf c = "h1") := by
      cases c with
      | text s => simp [tagOf]
      | elem t a cs0 =>
        have := h.1
        simp only [hasTag, Bool.or_eq_false_iff, decide_eq_false_iff_not] at this
        simpa [tagOf] using this.1
    simp only [firstH1InChildren, if_neg htag, firstH1Ctx_none c h.1]
    exact firstH1InChildren_none cs (c :: seen) h.2
end

/-! ### Attribute bookkeeping for media standardization -/

theorem find?_map_other (a : List (String × String)) (k v k' : String)
    (hne : k' ≠ k) :
    ((a.map (fun kv => if kv.1 = k then (k, v) else kv)).find?
      (fun kv => kv.1 = k')) = a.find? (fun kv => kv.1 = k') := by
  induction a with
  | nil => rfl
  | cons kv rest ih =>
    simp only [List.map]
    by_cases hk : kv.1 = k
    · have h1 : ¬ ((k : String) = k') := fun hh => hne hh.symm
      have h2 : ¬ (kv.1 = k') := by rw [hk]; exact h1
      rw [if_pos hk, List.find?_cons_of_neg _ (by simp [h1]),
          List.find?_cons_of_neg _ (by simp [h2])]
      exact ih
    · rw [if_neg hk]
      by_cases hk' : kv.1 = k'
      · rw [List.find?_cons_of_pos _ (by simp [hk']),
            List.find?_cons_of_pos _ (by simp [hk'])]
      · rw [List.find?_cons_of_neg _ (by simp [hk']),
            List.find?_cons_of_neg _ (by simp [hk'])]
        exact ih

theorem find?_append_single_other (a : List (String × String)) (k v k' : String)
    (hne : k' ≠ k) :
    ((a ++ [(k, v)]).find? (fun kv => kv.1 = k')) = a.find? (fun kv => kv.1 = k') := by
  induction a with
  | nil =>
    have h1 : ¬ ((k : String) = k') := fun hh => hne hh.symm
    simp only [List.nil_append]
    rw [List.find?_cons_of_neg _ (by simp [h1])]
  | cons kv rest ih =>
    by_cases hk' : kv.1 = k'
    · rw [List.cons_append, List.find?_cons_of_pos _ (by simp [hk']),
          List.find?_cons_of_pos _ (by simp [hk'])]
    · rw [List.cons_append, List.find?_cons_of_neg _ (by simp [hk']),
          List.find?_cons_of_neg _ (by simp [hk'])]
      exact ih

theorem find?_map_same : ∀ (a : List (String × String)) (k v : String),
    (a.find? (fun kv => kv.1 = k)).isSome = true →
    ((a.map (fun kv => if kv.1 = k then (k, v) else kv)).find?
      (fun kv => kv.1 = k)) = some (k, v)
  | [], k, v, hsome => by simp at hsome
  | kv :: rest, k, v, hsome => by
    simp only [List.map]
    by_cases hk : kv.1 = k
    · rw [if_pos hk]
      exact List.find?_cons_of_pos _ (by simp)
    · rw [if_neg hk, List.find?_cons_of_neg _ (by simp [hk])]
      rw [List.find?_cons_of_neg _ (by simp [hk])] at hsome
      exact find?_map_same rest k v hsome

theorem find?_append_single_same : ∀ (a : List (String × String)) (k v : String),
    a.find? (fun kv => kv.1 = k) = none →
    ((a ++ [(k, v)]).find? (fun kv => kv.1 = k)) = some (k, v)
  | [], k, v, _ => by
    simp only [List.nil_append]
    exact List.find?_cons_of_pos _ (by simp)
  | kv :: rest, k, v, hnone => by
    have hk : ¬ kv.1 = k := by
      intro hkk
      rw [List.find?_cons_of_pos _ (by simp [hkk])] at hnone
      cases hnone
    rw [List.cons_append, List.find?_cons_of_neg _ (by simp [hk])]
    rw [List.find?_cons_of_neg _ (by simp [hk])] at hnone
    exact find?_append_single_same rest k v hnone

theorem find?_setAttr_same (a : List (String × String)) (k v : String) :
    (setAttr a k v).find? (fun kv => kv.1 = k) = some (k, v) := by
  simp only [setAttr]
  split
  · rename_i hsome
    exact find?_map_same a k v hsome
  · rename_i hnone
    refine find?_append_single_same a k v ?_
    rcases hf : a.find? (fun kv => kv.1 = k) with _ | kv
    · exact hf
    · exact absurd (by rw [hf]; rfl) hnone

theorem find?_setAttr_other (a : List (String × String)) (k v k' : String)
    (hne : k' ≠ k) :
    (setAttr a k v).find? (fun kv => kv.1 = k') = a.find? (fun kv => kv.1 = k') := by
  simp only [setAttr]
  split
  · exact find?_map_other a k v k' hne
  · exact find?_append_single_other a k v k' hne

theorem find?_delAttr_other : ∀ (a : List (String × String)) (kdel k' : String),
    k' ≠ kdel →
    (delAttr a kdel).find? (fun kv => kv.1 = k') = a.find? (fun kv => kv.1 = k')
  | [], _, _, _ => rfl
  | kv :: rest, kdel, k', hne => by
    have ih := find?_delAttr_other rest kdel k' hne
    simp only [delAttr] at ih ⊢
    by_cases hk : kv.1 = kdel
    · have hk' : ¬ (kv.1 = k') := by rw [hk]; exact fun hh => hne hh.symm
      rw [List.filter_cons_of_neg (by simp [hk]),
          List.find?_cons_of_neg _ (by simp [hk'])]
      exact ih
    · rw [List.filter_cons_of_pos (by simp [hk])]
      by_cases hk' : kv.1 = k'
      · rw [List.find?_cons_of_pos _ (by simp [hk']),
            List.find?_cons_of_pos _ (by simp [hk'])]
      · rw [List.find?_cons_of_neg _ (by simp [hk']),
            List.find?_cons_of_neg _ (by simp [hk'])]
        exact ih

theorem mediaAttrs_dims (a : List (String × String)) :
    (mediaAttrs a).find? (fun kv => kv.1 = "width") = some ("width", "256") ∧
    (mediaAttrs a).find? (fun kv => kv.1 = "height") = some ("height", "256") := by
  simp only [mediaAttrs]
  constructor
  · rw [find?_delAttr_other _ _ _ (by decide), find?_delAttr_other _ _ _ (by decide),
        find?_delAttr_other _ _ _ (by decide), find?_setAttr_other _ _ _ _ (by decide),
        find?_setAttr_same]
  · rw [find?_delAttr_other _ _ _ (by decide), find?_delAttr_other _ _ _ (by decide),
        find?_delAttr_other _ _ _ (by decide), find?_setAttr_same]

mutual
theorem standardize_media : ∀ (t e : Node), occursB e (standardize t) = true →
    tagOf e = "img" ∨ tagOf e = "picture" →
    getAttr e "width" = some "256" ∧ getAttr e "height" = some "256"
  | .text s, e, hocc, htag => by
    simp only [standardize, occursB] at hocc
    have he := nodeEq_eq hocc
    rcases htag with h | h <;> rw [← he] at h <;> simp [tagOf] at h
  | .elem t a cs, e, hocc, htag => by
    simp only [standardize] at hocc
    split at hocc
    · simp only [occursB, Bool.or_eq_true] at hocc
      rcases hocc with hself | hlist
      · have he := nodeEq_eq hself
        have hd := mediaAttrs_dims a
        rw [← he]
        simp only [getAttr, attrsOf]
        rw [hd.1, hd.2]
        exact ⟨rfl, rfl⟩
      · exact standardizeL_media cs e hlist htag
    · split at hocc
      · simp only [occursB, Bool.or_eq_true] at hocc
        rcases hocc with hself | hlist
        · have he := nodeEq_eq hself
          have hd := mediaAttrs_dims a
          rw [← he]
          simp only [getAttr, attrsOf]
          rw [find?_setAttr_other _ _ _ _ (by decide), hd.1,
              find?_setAttr_other _ _ _ _ (by decide), hd.2]
          exact ⟨rfl, rfl⟩
        · exact standardizeL_media cs e hlist htag
      · simp only [occursB, Bool.or_eq_true] at hocc
        rcases hocc with hself | hlist
        · have he := nodeEq_eq hself
          rename_i hcond1 hcond2
          exfalso
          rcases htag with h | h <;> rw [← he] at h <;> simp only [tagOf] at h
          · exact hcond1 (by simp [h])
          · exact hcond2 (by simp [h])
        · exact standardizeL_media cs e hlist htag
theorem standardizeL_media : ∀ (cs : List Node) (e : Node),
    occursBL e (standardizeL cs) = true →
    tagOf e = "img" ∨ tagOf e = "picture" →
    getAttr e "width" = some "256" ∧ getAttr e "height" = some "256"
  | [], e, hocc, _ => by simp [standardizeL, occursBL] at hocc
  | c :: cs, e, hocc, htag => by
    simp only [standardizeL, occursBL, Bool.or_eq_true] at hocc
    rcases hocc with h | h
    · exact standardize_media c e h htag
    · exact standardizeL_media cs e h htag
end

/-! ### Inversion of a successful `extract` -/

theorem extract_some {raw : String} {doc out : Node}
    (h : extract raw doc = some out) :
    ∃ header body, find_h1_container (remove_noise doc) = some header ∧
      find_article_container (remove_noise doc) = some body ∧
      3 ≤ countTag "p" body ∧
      out = standardize (fixClean (Node.elem "[document]" []
        [merge_content header body])) := by
  simp only [extract] at h
  split at h
  · exact absurd h (by simp)
  · split at h
    · exact absurd h (by simp)
    · rename_i header hH
      split at h
      · exact absurd h (by simp)
      · rename_i body hB
        split at h
        · exact absurd h (by simp)
        · rename_i hp
          simp only [clean_extracted] at h
          split at h
          · exact absurd h (by simp)
          · simp only [Option.some.injEq] at h
            exact ⟨header, body, hH, hB, by omega, h.symm⟩

/-! ## Claim theorems -/

/-- C1: for every HTML input containing no `h1` element, `extract` returns
the empty string (`none` in the embedding).  This is a NotFound terminal
state of the pipeline, not an exception: either the raw `'<h1'` pre-check
fails, or — since noise removal introduces no `h1` — `_find_h1_container`
finds no `h1` and the pipeline short-circuits to the empty result. -/
theorem c1_no_h1_empty (raw : String) (doc : Node)
    (h : hasTag "h1" doc = false) : extract raw doc = none := by
  simp only [extract]
  split
  · rfl
  · have h2 := remove_noise_hasTag doc h
    have h3 := firstH1Ctx_none _ h2
    simp only [find_h1_container, h3]

/-- Witness for C1: a concrete paragraph-only document. -/
theorem c1_witness : hasTag "h1" doc1 = false ∧ extract raw1 doc1 = none :=
  ⟨rfl, c1_no_h1_empty raw1 doc1 rfl⟩

/-- C2 counterexample: on `docC2` the pipeline returns a non-empty output
that has only two `p` elements (fewer than `min_paragraph_count` = 3) and
those two `p` elements carry identical normalized text — the merger
deduplicates only the direct children of the header container, the body
container is appended wholesale without deduplication, and cleaning removes
the empty third paragraph.  (The header rebuild's live child iterator also
silently drops the second, fresh headline `h1B`.) -/
theorem c2_counterexample :
    extract rawC2 docC2 = some outC2 ∧
    countTag "p" outC2 = 2 ∧
    ((descElems outC2).filter (fun e => tagOf e = "p")).map textStrip
      = [pXText, pXText] ∧
    occursB h1B outC2 = false :=
  ⟨rfl, rfl, rfl, rfl⟩

/-- C2 amended: for every input on which `extract` returns a non-empty
string, the selected body container contained at least `min_paragraph_count`
(3) `p` elements at selection time; the emitted output itself may contain
multiple `h1`s, fewer than 3 `p`s, and duplicate normalized texts. -/
theorem c2_amended (raw : String) (doc out : Node)
    (h : extract raw doc = some out) :
    ∃ body, find_article_container (remove_noise doc) = some body ∧
      3 ≤ countTag "p" body := by
  obtain ⟨header, body, _, hB, hp, _⟩ := extract_some h
  exact ⟨body, hB, hp⟩

/-- Witness for the amended C2 at the concrete document. -/
theorem c2_amended_witness :
    ∃ body, find_article_container (remove_noise docC2) = some body ∧
      3 ≤ countTag "p" body :=
  c2_amended rawC2 docC2 outC2 rfl

/-- C3: the tree produced when the fixpoint cleaning loop exits is a
fixpoint of the pass function — running `clean_pass` once more on that
output removes zero additional elements. -/
theorem c3_fixpoint (t : Node) : (clean_pass (fixClean t)).2 = 0 :=
  cleanLoop_fix (elemCount t + 1) t (by omega)

/-- C4: every pass that reports a positive removal count strictly decreases
the (finite, non-negative) element count of the tree, so only finitely many
passes run before a pass removes zero elements. -/
theorem c4_pass_decreases (t : Node) (h : 0 < (clean_pass t).2) :
    elemCount (clean_pass t).1 < elemCount t := by
  have := clean_pass_le t
  omega

/-- Witness for C4: a document holding one removable empty `div`. -/
theorem c4_witness :
    0 < (clean_pass t4).2 ∧ elemCount (clean_pass t4).1 < elemCount t4 :=
  ⟨by decide, c4_pass_decreases t4 (by decide)⟩

/-- C6: every `img` and `picture` element present in a non-empty output
carries explicit `width` and `height` attributes equal to "256", set by the
media normalization step that runs after cleaning. -/
theorem c6_media_dims (raw : String) (doc out e : Node)
    (hex : extract raw doc = some out) (hocc : occursB e out = true)
    (htag : tagOf e = "img" ∨ tagOf e = "picture") :
    getAttr e "width" = some "256" ∧ getAttr e "height" = some "256" := by
  obtain ⟨header, body, _, _, _, hout⟩ := extract_some hex
  subst hout
  exact standardize_media _ e hocc htag

/-- Witness for C6: the concrete document with an image. -/
theorem c6_witness :
    extract raw6 doc6 = some out6 ∧ occursB imgOut out6 = true ∧
    getAttr imgOut "width" = some "256" ∧ getAttr imgOut "height" = some "256" := by
  refine ⟨rfl, rfl, ?_⟩
  exact c6_media_dims raw6 doc6 out6 imgOut rfl rfl (Or.inl rfl)

/-- C7 counterexample: in `docC7` the `nav` sits inside the protected `div`
(the `h1`'s direct parent), yet noise filtering removes it — being contained
by a protected element does not protect an element. -/
theorem c7_counterexample :
    (protectedOf docC7).contains divProt = true ∧
    occursB navX divProt = true ∧
    occursB navX (remove_noise docC7) = false :=
  ⟨rfl, rfl, rfl⟩

/-- C7 amended: during noise filtering a `header`/`footer`/`aside`/`nav`
element is removed exactly when it neither equals (structurally) nor
contains a protected element; containment inside a protected element does
not prevent removal. -/
theorem c7_amended (prot : List Node) (t : String) (a : List (String × String))
    (cs : List Node) (h : noiseTags.contains t = true) :
    (noisePass prot (Node.elem t a cs) = none ↔
      ¬(prot.contains (Node.elem t a cs) = true ∨
        hasProtDesc prot (Node.elem t a cs) = true)) := by
  simp only [noisePass, h, Bool.true_and]
  split
  · rename_i hcond
    simp only [Bool.and_eq_true, Bool.not_eq_true'] at hcond
    constructor
    · intro _
      rintro (hc | hd)
      · rw [hcond.1] at hc; cases hc
      · rw [hcond.2] at hd; cases hd
    · intro _; rfl
  · rename_i hcond
    constructor
    · intro hn; exact absurd hn (by simp)
    · intro hr
      exfalso
      apply hcond
      have hc : prot.contains (Node.elem t a cs) = false := by
        cases hv : prot.contains (Node.elem t a cs)
        · rfl
        · exact absurd (Or.inl hv) hr
      have hd : hasProtDesc prot (Node.elem t a cs) = false := by
        cases hv : hasProtDesc prot (Node.elem t a cs)
        · rfl
        · exact absurd (Or.inr hv) hr
      rw [hc, hd]
      rfl

/-- Witness for the amended C7 at the concrete `nav`. -/
theorem c7_witness :
    noiseTags.contains "nav" = true ∧
    (noisePass (protectedOf docC7) navX = none ↔
      ¬((protectedOf docC7).contains navX = true ∨
        hasProtDesc (protectedOf docC7) navX = true)) :=
  ⟨rfl, c7_amended (protectedOf docC7) "nav" [] [Node.text "x"] rfl⟩

/-- C10: the initial headline pre-check is a case-sensitive raw substring
test for `'<h1'` on the unparsed input, so a document whose headline tags
are serialized in uppercase is rejected before any parsing, even though a
lenient HTML parser recognizes the `h1` element. -/
theorem c10_uppercase_h1 :
    containsSub raw10 "<h1" = false ∧ hasTag "h1" doc10 = true ∧
    extract raw10 doc10 = none :=
  ⟨rfl, rfl, rfl⟩

/-- C5: the Strategy A completeness check accepts exactly the elements whose
first `h1` descendant is preceded by at most two `p`/`div`/`section`
siblings, with at least `min_paragraph_count` (3) paragraphs and text length
at least `2 × min_text_length` (300); in particular, the candidate whose
`h1` is preceded by 4 sibling `div`s is rejected even though it meets both
other thresholds. -/
theorem c5_complete_iff :
    (∀ e : Node, is_complete_article e = true ↔
      ((∃ k, firstH1PrevBlockCount e = some k ∧ k ≤ 2) ∧
       3 ≤ countTag "p" e ∧ 300 ≤ (textStrip e).length)) ∧
    is_complete_article rejectC5 = false ∧
    firstH1PrevBlockCount rejectC5 = some 4 ∧
    3 ≤ countTag "p" rejectC5 ∧ 300 ≤ (textStrip rejectC5).length := by
  refine ⟨?_, rfl, rfl, by decide, by decide⟩
  intro e
  simp only [is_complete_article, firstH1PrevBlockCount]
  rcases hc : firstH1Ctx e with _ | r
  · simp
  · simp only [Option.map, Option.some.injEq]
    split
    · rename_i hgt
      constructor
      · intro hF; cases hF
      · rintro ⟨⟨k, hk, hk2⟩, _, _⟩
        rw [← hk] at hk2
        omega
    · rename_i hle
      rw [Bool.and_eq_true, decide_eq_true_eq, decide_eq_true_eq]
      constructor
      · rintro ⟨h1, h2⟩
        exact ⟨⟨_, rfl, by omega⟩, h1, by omega⟩
      · rintro ⟨_, h1, h2⟩
        exact ⟨h1, by omega⟩

/-- C8 counterexample: `doc8`'s only credible container is a
content-pattern-matching `div` with enough paragraphs and text, yet
`_find_article_container` returns nothing — the CSS selector strings in the
fallback `find_all` are treated as literal tag names and never match. -/
theorem c8_counterexample :
    find_article_container doc8 = none ∧
    occursB contentDiv8 doc8 = true ∧
    3 ≤ countTag "p" contentDiv8 ∧
    150 ≤ (textStrip contentDiv8).length ∧
    anyPat contentPatterns (strLower (classStr contentDiv8)) = true :=
  ⟨rfl, rfl, by decide, by decide, rfl⟩

/-- C8 amended: when no root-level `article`/`main` yields a candidate, the
fallback is seeded from every `article` and `main` element found anywhere —
and from nothing else: in any document whose tag names are ordinary (no tag
literally named `div[class*="content"]` or `div[class*="article"]`), the
seed list is exactly the `article`/`main` elements. -/
theorem c8_amended (soup : Node)
    (h : (descElems soup).all (fun e =>
      !(tagOf e = "div[class*=\"content\"]" || tagOf e = "div[class*=\"article\"]"))
      = true) :
    fallbackSeeds soup =
      (descElems soup).filter (fun e => tagOf e = "article" || tagOf e = "main") := by
  simp only [fallbackSeeds]
  apply List.filter_congr
  intro e he
  have hno := (List.all_eq_true.mp h) e he
  simp only [Bool.not_eq_true', Bool.or_eq_false_iff, decide_eq_false_iff_not] at hno
  simp only [fallbackSeedTags]
  by_cases h1 : tagOf e = "article" <;> by_cases h2 : tagOf e = "main" <;>
    simp [List.contains_cons, beq_iff_eq, h1, h2, hno.1, hno.2]

/-- Witness for the amended C8 at the concrete document. -/
theorem c8_witness :
    ((descElems doc8).all (fun e =>
      !(tagOf e = "div[class*=\"content\"]" || tagOf e = "div[class*=\"article\"]"))
      = true) ∧
    fallbackSeeds doc8 =
      (descElems doc8).filter (fun e => tagOf e = "article" || tagOf e = "main") :=
  ⟨rfl, c8_amended doc8 rfl⟩

/-- `hasTagL` agrees with an existence check over the preorder descendant
list (used to relate the two forms of "has a `p` descendant" appearing in
`should_remove_container`). -/
theorem hasTagL_eq_any : ∀ (tg : String) (cs : List Node),
    hasTagL tg cs = (descElemsL cs).any (fun d => tagOf d = tg)
  | _, [] => rfl
  | tg, .text s :: cs => by
    simp only [hasTagL, hasTag, descElemsL, isElem, descElems, List.any_append,
      Bool.false_or, if_neg]
    have := hasTagL_eq_any tg cs
    simp [this]
  | tg, .elem t a cs0 :: cs => by
    simp only [hasTagL, hasTag, descElemsL, isElem, descElems, List.any_append,
      List.any_cons, if_pos]
    rw [hasTagL_eq_any tg cs0, hasTagL_eq_any tg cs]
    simp [tagOf, Bool.or_assoc]

/-- C9 counterexample: during a cleaning pass the `div` with class `share`
is removed even though it has a paragraph descendant (the paragraph is
hoisted out and survives), contradicting "removed only if it has no
paragraph descendant". -/
theorem c9_counterexample :
    hasTagDesc "p" shareDiv = true ∧
    clean_pass t9 = (t9', 1) ∧
    occursB shareDiv t9' = false :=
  ⟨rfl, rfl, rfl⟩

/-- C9 amended: an element whose nonempty `class` attribute contains
"share", or whose space-joined attribute values contain "share" or "save",
is removed regardless of paragraph descendants — provided it has no `h1`
descendant, its tag is none of `html`/`body`/`p`/`article`, it has at most
one direct `p` child, and it is not an `a`/`span` inside a paragraph; the
no-paragraph-descendant condition applies only to the "related" checks, so
an element with a paragraph descendant and no share/save-matching attribute
is never removed by those keyword checks; when a share container is removed,
its paragraphs are hoisted out first and survive the pass. -/
theorem c9_amended :
    (∀ (inP : Bool) (t : String) (a : List (String × String)) (cs : List Node),
      hasTagDesc "h1" (Node.elem t a cs) = false →
      t ≠ "html" → t ≠ "body" → t ≠ "p" → t ≠ "article" →
      directPCount (Node.elem t a cs) ≤ 1 →
      ((t = "a" ∨ t = "span") → inP = false) →
      ((∃ c, getAttr (Node.elem t a cs) "class" = some c ∧ c ≠ "" ∧
          containsSub (strLower c) "share" = true) ∨
        containsSub (strLower (attrVals (Node.elem t a cs))) "share" = true ∨
        containsSub (strLower (attrVals (Node.elem t a cs))) "save" = true) →
      a ≠ [] →
      should_remove_container inP (Node.elem t a cs) = true) ∧
    (∀ (inP : Bool) (a : List (String × String)) (cs : List Node),
      hasTagDesc "p" (Node.elem "div" a cs) = true →
      containsSub (strLower (classStr (Node.elem "div" a cs))) "share" = false →
      containsSub (strLower (attrVals (Node.elem "div" a cs))) "share" = false →
      containsSub (strLower (attrVals (Node.elem "div" a cs))) "save" = false →
      should_remove_container inP (Node.elem "div" a cs) = false) ∧
    occursB pHello (clean_pass t9).1 = true := by
  refine ⟨?_, ?_, rfl⟩
  · intro inP t a cs hH1 hHtml hBody hPtag hArt hDp hAS hKey hA
    simp only [should_remove_container]
    rw [if_neg (by simp [hH1, hHtml, hBody])]
    rw [if_neg (by simp [hPtag, hArt])]
    rw [if_neg (by omega)]
    split
    · rfl
    · rw [if_neg ?has]
      case has =>
        intro hc
        simp only [Bool.and_eq_true, Bool.or_eq_true, decide_eq_true_eq] at hc
        have hf := hAS hc.1
        rw [hf] at hc
        exact absurd hc.2 (by simp)
      split
      · rfl
      · rcases hKey with ⟨c, hgc, hcne, hcsub⟩ | hsh | hsv
        · rw [if_pos (by simp [hA, hgc, hcne, hcsub])]
        · split
          · rfl
          · rw [if_pos (by simp [hA, hsh])]
        · split
          · rfl
          · split
            · rfl
            · split
              · rfl
              · rw [if_pos (by simp [hA, hsv])]
  · intro inP a cs hP hcls hshare hsave
    have hPany : ((descElems (Node.elem "div" a cs)).any
        (fun d => ["p", "img", "h1", "h2", "h3"].contains (tagOf d))) = true := by
      have h0 : hasTagL "p" cs = true := hP
      rw [hasTagL_eq_any] at h0
      rcases List.any_eq_true.mp h0 with ⟨d, hd, htag⟩
      refine List.any_eq_true.mpr ⟨d, ?_, ?_⟩
      · simpa [descElems] using hd
      · simp only [decide_eq_true_eq] at htag
        rw [htag]
        rfl
    rw [should_remove_container.eq_def]
    split
    · rfl
    · rename_i x tg av cv heq
      injection heq with hteq haeq hceq
      subst hteq; subst haeq; subst hceq
      by_cases hH1v : (hasTagDesc "h1" (Node.elem "div" a cs) ||
          decide ("div" = "html") || decide ("div" = "body")) = true
      · rw [if_pos hH1v]
      · rw [if_neg hH1v]
        rw [if_neg (by simp)]
        by_cases hdp : 1 < directPCount (Node.elem "div" a cs)
        · rw [if_pos hdp]
        · rw [if_neg hdp]
          rw [if_neg ?hint]
          case hint =>
            intro hcond
            simp only [Bool.and_eq_true, Bool.not_eq_true'] at hcond
            rw [hPany] at hcond
            exact absurd hcond.2 (by simp)
          rw [if_neg (by simp)]
          rw [if_neg (by simp)]
          rw [if_neg ?hclsb]
          case hclsb =>
            rcases hga : getAttr (Node.elem "div" a cs) "class" with _ | cval
            · simp [hga]
            · have hcv : containsSub (strLower cval) "share" = false := by
                have h' := hcls
                simp only [classStr, hga, Option.getD] at h'
                exact h'
              simp [hga, hcv]
          rw [if_neg (by simp [hshare])]
          rw [if_neg (by simp [hP])]
          rw [if_neg (by simp [hshare, hsave])]
          rw [if_neg (by simp [hP])]

/-- Witness for the amended C9: a `div` whose class merely contains "share"
(`share-bar`) and a `section` whose `id` value contains "save" are both
removable despite their paragraph child; the same `div` without any matching
attribute is not. -/
theorem c9_witness :
    should_remove_container false
      (Node.elem "div" [("class", "share-bar")] [pHello]) = true ∧
    should_remove_container false
      (Node.elem "section" [("id", "savebox")] [pHello]) = true ∧
    should_remove_container false
      (Node.elem "div" [("id", "x")] [pHello]) = false := by
  refine ⟨?_, ?_, ?_⟩
  · exact c9_amended.1 false "div" [("class", "share-bar")] [pHello] rfl
      (by decide) (by decide) (by decide) (by decide) (by decide)
      (fun h => rfl) (Or.inl ⟨"share-bar", rfl, by decide, rfl⟩) (by decide)
  · exact c9_amended.1 false "section" [("id", "savebox")] [pHello] rfl
      (by decide) (by decide) (by decide) (by decide) (by decide)
      (fun h => rfl) (Or.inr (Or.inr rfl)) (by decide)
  · exact c9_amended.2.1 false [("id", "x")] [pHello] rfl rfl rfl rfl

end MT
